import Mathlib

/-!
# Verification of the MSD radix sort (`src/MSD.py`)

Strings are modelled as lists of character ordinals (`Str := List Nat`).
The class `msd` of `MSD.py` is modelled by the structure `msd` below, its
methods by `msd.init`, `msd.set_items` and `msd.msd`; Python exceptions are
modelled with `Except PyErr`.

`_msd` recurses on the character position `index`, stopping as soon as
`index > self.max_index`; we make that depth explicit as a fuel argument
`fuel = (max_index + 1 - index).toNat`, so that the recursion is by `Nat.rec`
and every function in the pipeline is kernel-computable.  The counting sort
`_stableSort` and the bucket loop of `_msd` are translated twice:

* `countLoopE`/`placeLoopE`/`stableSortE`/`msdLoopE`/`msdFuelE`: the faithful
  translation, with Python's `IndexError` behaviour on out-of-range string
  positions and on ordinals outside `[0, 128)`;
* `countLoop`/`placeLoop`/`stableSort`/`msdLoop`/`msdFuel`: a totalised pure
  core, polymorphic in the item type `α` together with the key function
  `k : α → Nat → Nat` standing for `fun item index => ord(item[index])`
  (the Python code accesses items only through `item[index]` and `len`);
  the polymorphism lets the same development be instantiated both with plain
  strings and with position-tagged strings, which is how stability is stated.

`stableSortE_eq_ok` and `msdFuelE_eq_ok` prove that on inputs whose examined
characters are all defined with ordinals below 128 the two translations agree.
-/

/-- Character strings as lists of character ordinals. -/
abbrev Str := List Nat

/-- Python exceptions raised by `MSD.py`: `ValueError` from `max([])` in
`set_items`, and `IndexError` from out-of-range indexing (a string position
past the end of an item, or an ordinal at least 128 used as an index into the
128-entry `count_list`). -/
inductive PyErr where
  | valueError : PyErr
  | indexOutOfRange : PyErr
deriving DecidableEq

/-- `ord(item[index])` on a plain string, totalised: out-of-range positions
give 0.  The error-checked translation (`countLoopE` etc.) raises there
instead; `stableSortE_eq_ok` shows the two agree on well-formed input. -/
def strKey (s : Str) (index : Nat) : Nat := (s[index]?).getD 0

/-- The frequency-count loop of `_stableSort` (MSD.py lines 123-125):
starting from `count_list = [0] * 128`, each item in order increments the
bucket of its key (`count_list[ord(item[index])] += 1`). -/
def countLoop (k : α → Nat) (l : List α) : List Nat :=
  l.foldl (fun cnt x => cnt.set (k x) (cnt.getD (k x) 0 + 1)) (List.replicate 128 0)

/-- The cumulative-sum loop of `_stableSort` (lines 126-128):
`for i in range(1, 128): count_list[i] += count_list[i-1]`. -/
def cumLoop (cl : List Nat) : List Nat :=
  (List.range' 1 127).foldl (fun c i => c.set i (c.getD i 0 + c.getD (i - 1) 0)) cl

/-- The placement loop of `_stableSort` (lines 129-134): the input is
traversed from the back (`for i in range(n-1, -1, -1)`), and for each item
`count_list[e] -= 1; out_list[count_list[e]] = item`.  The recursion places
the tail (the later items) before the head, which is exactly that reverse
traversal.  `out_list = [0] * n` is modelled as `replicate n none`. -/
def placeLoop (k : α → Nat) : List α → List Nat → List (Option α) → List Nat × List (Option α)
  | [], cnt, out => (cnt, out)
  | x :: xs, cnt, out =>
    let r := placeLoop k xs cnt out
    let p := (r.1).getD (k x) 0 - 1
    (r.1.set (k x) p, r.2.set p (some x))

/-- `_stableSort(input_list, index)` (lines 93-135), totalised: the integer
placeholder `0` left in `out_list` at any slot the loop does not write is
modelled by `dflt` (on well-keyed input every slot is written; the raising
translation is `stableSortE`). -/
def stableSort (k : α → Nat → Nat) (dflt : α) (index : Nat) (l : List α) : List α :=
  ((placeLoop (fun x => k x index) l (cumLoop (countLoop (fun x => k x index) l))
      (List.replicate l.length none)).2).map (fun o => o.getD dflt)

/-- Python slice `l[a:b]` for `0 ≤ a ≤ b`. -/
def pySlice (l : List α) (a b : Nat) : List α := (l.drop a).take (b - a)

/-- Python slice assignment `l[a:b] = m` as a value: `l` with the positions
`[a, b)` replaced by `m`. -/
def spliceAt (l : List α) (a b : Nat) (m : List α) : List α := l.take a ++ m ++ l.drop b

/-- The bucket-collecting while-loop of `_msd` (lines 73-90).  `next` stands
for the recursive call `self._msd(·, index + 1)` and `k` for
`fun item => ord(item[index])`.  `first` and `last` are `idx_first` and
`idx_last`; `remaining` is `len(input_list) - idx_last`, the number of loop
iterations still to run, so the `remaining = 0` case is the loop exit followed
by the final slice assignment (lines 87-90).  The character comparison
`sorted_list[idx_last][index] == sorted_list[idx_first][index]` is modelled
on `Option` (it is exercised only in range). -/
def msdLoop (next : List α → List α) (k : α → Nat) :
    List α → Nat → Nat → Nat → List α
  | s, first, last, 0 => spliceAt s first last (next (pySlice s first last))
  | s, first, last, remaining + 1 =>
    if (s[last]?).map k = (s[first]?).map k then
      msdLoop next k s first (last + 1) remaining
    else
      msdLoop next k (spliceAt s first last (next (pySlice s first last)))
        last (last + 1) remaining

/-- `_msd(input_list, index)` (lines 48-91) with the recursion depth made
explicit: `fuel` is the number of character positions still to be examined,
`(self.max_index + 1 - index).toNat`, so `fuel = 0` is exactly the exit
condition `index > self.max_index` and the recursive call at `index + 1`
carries `fuel - 1`.  Defined by `Nat.rec` so that it computes by kernel
reduction; `msdFuel_zero`/`msdFuel_succ` are its defining equations. -/
def msdFuel (k : α → Nat → Nat) (dflt : α) (fuel : Nat) : Nat → List α → List α :=
  Nat.rec (motive := fun _ => Nat → List α → List α)
    (fun _ l => l)
    (fun _ ih index l =>
      if l.length < 2 then l
      else msdLoop (ih (index + 1)) (fun x => k x index)
        (stableSort k dflt index l) 0 1 (l.length - 1))
    fuel

/-- `_msd(input_list, index)` for a sorter with `self.max_index = M`. -/
def msdFrom (k : α → Nat → Nat) (dflt : α) (M : Int) (index : Nat) (l : List α) : List α :=
  msdFuel k dflt (M + 1 - index).toNat index l

/-- The frequency-count loop of `_stableSort` with Python's raising
behaviour: `input_list[i][index]` raises `IndexError` when `index` is past
the end of the string, and `count_list[ord(c)] += 1` raises `IndexError`
when `ord(c) ≥ 128`.  Items are processed left to right, as in the code. -/
def countLoopE (index : Nat) : List Str → List Nat → Except PyErr (List Nat)
  | [], cnt => .ok cnt
  | x :: xs, cnt =>
    match x[index]? with
    | none => .error .indexOutOfRange
    | some c =>
      if c < 128 then countLoopE index xs (cnt.set c (cnt.getD c 0 + 1))
      else .error .indexOutOfRange

/-- The placement loop of `_stableSort` with Python's raising behaviour on
the re-read `ord(input_list[i][index])`.  When this loop is entered after a
successful counting loop those reads cannot fail, and the write position
`count_list[e] - 1` is always within `out_list` (the cumulative counts sum
to `n`), so plain `List.set` models the write. -/
def placeLoopE (index : Nat) : List Str → List Nat → List (Option Str) →
    Except PyErr (List Nat × List (Option Str))
  | [], cnt, out => .ok (cnt, out)
  | x :: xs, cnt, out =>
    (placeLoopE index xs cnt out).bind fun r =>
      match x[index]? with
      | none => .error .indexOutOfRange
      | some c =>
        if c < 128 then
          .ok (r.1.set c ((r.1).getD c 0 - 1), r.2.set ((r.1).getD c 0 - 1) (some x))
        else .error .indexOutOfRange

/-- `_stableSort(input_list, index)` (lines 93-135), faithful translation:
count, convert to cumulative sums, place from the back. -/
def stableSortE (index : Nat) (l : List Str) : Except PyErr (List Str) :=
  (countLoopE index l (List.replicate 128 0)).bind fun cnt =>
    (placeLoopE index l (cumLoop cnt) (List.replicate l.length none)).bind fun r =>
      .ok (r.2.map (fun o => o.getD []))

/-- The while-loop of `_msd` with Python's raising behaviour for the
character comparison `sorted_list[idx_last][index] == sorted_list[idx_first][index]`. -/
def msdLoopE (next : List Str → Except PyErr (List Str)) (index : Nat) :
    List Str → Nat → Nat → Nat → Except PyErr (List Str)
  | s, first, last, 0 =>
    (next (pySlice s first last)).bind fun m => .ok (spliceAt s first last m)
  | s, first, last, remaining + 1 =>
    match s[last]?, s[first]? with
    | some a, some b =>
      match a[index]?, b[index]? with
      | some ca, some cb =>
        if ca = cb then msdLoopE next index s first (last + 1) remaining
        else
          (next (pySlice s first last)).bind fun m =>
            msdLoopE next index (spliceAt s first last m) last (last + 1) remaining
      | _, _ => .error .indexOutOfRange
    | _, _ => .error .indexOutOfRange

/-- `_msd(input_list, index)` (lines 48-91), faithful translation with the
recursion depth `fuel = (self.max_index + 1 - index).toNat` made explicit
(see `msdFuel`). -/
def msdFuelE (fuel : Nat) : Nat → List Str → Except PyErr (List Str) :=
  Nat.rec (motive := fun _ => Nat → List Str → Except PyErr (List Str))
    (fun _ l => .ok l)
    (fun _ ih index l =>
      if l.length < 2 then .ok l
      else
        (stableSortE index l).bind fun sorted =>
          msdLoopE (ih (index + 1)) index sorted 0 1 (l.length - 1))
    fuel

/-- `_msd(input_list, index)` for a sorter with `self.max_index = M`,
raising translation. -/
def msdE (M : Int) (index : Nat) (l : List Str) : Except PyErr (List Str) :=
  msdFuelE (M + 1 - index).toNat index l

/-- The state of an `msd` object: `self.items` and `self.max_index`. -/
structure msd where
  items : List Str
  max_index : Int
deriving DecidableEq

/-- `msd.__init__(self, items=[])` (lines 11-17): `self.items` is always set
to `[]` (the argument is used only to derive `max_index`), and
`self.max_index` is `max(len(x) for x in items) - 1` when `items` is
non-empty and `0` otherwise. -/
def msd.init (items : List Str := []) : msd :=
  { items := [],
    max_index :=
      if 0 < items.length then (((items.map List.length).foldl max 0 : Nat) : Int) - 1
      else 0 }

/-- `msd.set_items(self, items)` (lines 19-31): stores the items and sets
`self.max_index = max(len(x) for x in items) - 1`; on an empty list,
`max([])` raises `ValueError`.  The previous state is discarded entirely,
so the method is modelled as producing the new state. -/
def msd.set_items (items : List Str) : Except PyErr msd :=
  if items.length = 0 then .error .valueError
  else .ok { items := items,
             max_index := (((items.map List.length).foldl max 0 : Nat) : Int) - 1 }

/-- `msd.msd(self)` (lines 33-46): `return self._msd(self.items, 0)`. -/
def msd.msd (m : msd) : Except PyErr (List Str) :=
  msdE m.max_index 0 m.items

/-- `set_items` followed by `msd()`: the top-level sorting pipeline used by
the test harness (`self.sorter.set_items(unsorted); self.sorter.msd()`). -/
def runSort (items : List Str) : Except PyErr (List Str) :=
  (msd.set_items items).bind msd.msd

/-- Ordinal-wise lexicographic comparison `a <= b` on strings. -/
def lexLeB : Str → Str → Bool
  | [], _ => true
  | _ :: _, [] => false
  | a :: as, b :: bs => a < b || (a == b && lexLeB as bs)

/-- The vector of keys a run of `_msd` starting at position `index` with
`fuel` positions left can still examine:
`[k x index, k x (index+1), ..., k x (index+fuel-1)]`. -/
def keyVec (k : α → Nat → Nat) (index fuel : Nat) (x : α) : List Nat :=
  (List.range fuel).map (fun t => k x (index + t))

/-- The maximal runs of consecutive elements sharing a key, used to describe
the buckets found by the while-loop of `_msd`: each run is a maximal block of
elements whose key equals the key of the block's first element (the loop
compares against `sorted_list[idx_first]`). -/
def runs (k : α → Nat) : List α → List (List α)
  | [] => []
  | x :: xs =>
    (x :: xs.takeWhile (fun y => k y == k x)) ::
      runs k (xs.dropWhile (fun y => k y == k x))
termination_by l => l.length
decreasing_by
  simp only [List.length_cons]
  exact Nat.lt_succ_of_le ((List.dropWhile_sublist _).length_le)

/-! ### Counting the keys: characterisation of `countLoop` and `cumLoop` -/

/-- Number of items of `l` whose key is exactly `c`. -/
def cntEq (k : α → Nat) (l : List α) (c : Nat) : Nat :=
  l.countP (fun x => decide (k x = c))

/-- Number of items of `l` whose key is at most `c`. -/
def cntLe (k : α → Nat) (l : List α) (c : Nat) : Nat :=
  l.countP (fun x => decide (k x ≤ c))

/-- Number of items of `l` whose key is strictly below `c`. -/
def cntLt (k : α → Nat) (l : List α) (c : Nat) : Nat :=
  l.countP (fun x => decide (k x < c))

/-- Sum of the first `c + 1` entries of a count list. -/
def sumTo (cl : List Nat) (c : Nat) : Nat :=
  ((List.range (c + 1)).map (fun j => cl.getD j 0)).sum

/-- The items of `l` grouped by key: bucket `c` (for `c = 0, ..., 127` in
increasing order) holds the items of `l` whose key is `c`, in input order. -/
def buckets (k : α → Nat) (l : List α) : List (List α) :=
  (List.range 128).map (fun c => l.filter (fun y => decide (k y = c)))

/-- A well-formed character at `index`: defined, with ordinal below 128. -/
def GoodAt (index : Nat) (x : Str) : Prop :=
  ∃ c, x[index]? = some c ∧ c < 128

/-- A string literal as a list of character ordinals. -/
def strOrds (s : String) : Str := s.data.map Char.toNat

/-- Key function for position-tagged items: the tag is ignored, exactly as
the Python code only ever reads `item[index]`. -/
def tagKey (p : Str × Nat) (j : Nat) : Nat := strKey p.1 j

/-- The input list with each item tagged by its original position. -/
def tagged (l : List Str) : List (Str × Nat) := l.zip (List.range l.length)

theorem cntLe_succ (k : α → Nat) (l : List α) (c : Nat) :
    cntLe k l (c + 1) = cntLe k l c + cntEq k l (c + 1) := by
  induction l with
  | nil => rfl
  | cons x xs ih =>
    simp only [cntLe, cntEq, List.countP_cons, decide_eq_true_eq] at ih ⊢
    split_ifs <;> omega

theorem cntLe_zero (k : α → Nat) (l : List α) : cntLe k l 0 = cntEq k l 0 := by
  unfold cntLe cntEq
  refine List.countP_congr (fun x _ => ?_)
  simp [Nat.le_zero]

theorem cntLt_succ (k : α → Nat) (l : List α) (c : Nat) :
    cntLt k l (c + 1) = cntLe k l c := by
  unfold cntLt cntLe
  refine List.countP_congr (fun x _ => ?_)
  simp [Nat.lt_succ_iff]

theorem cntLt_zero (k : α → Nat) (l : List α) : cntLt k l 0 = 0 := by
  unfold cntLt
  induction l with
  | nil => rfl
  | cons x xs ih => simp [List.countP_cons, ih]

theorem cntLe_eq_cntLt_add (k : α → Nat) (l : List α) (c : Nat) :
    cntLe k l c = cntLt k l c + cntEq k l c := by
  cases c with
  | zero => rw [cntLe_zero, cntLt_zero, Nat.zero_add]
  | succ c => rw [cntLe_succ, cntLt_succ]

theorem cntLe_le_length (k : α → Nat) (l : List α) (c : Nat) : cntLe k l c ≤ l.length :=
  List.countP_le_length _

theorem cntLe_le_cntLt (k : α → Nat) (l : List α) {c c' : Nat} (h : c < c') :
    cntLe k l c ≤ cntLt k l c' := by
  refine List.countP_mono_left (fun x _ hx => ?_)
  simp only [decide_eq_true_eq] at hx ⊢
  omega

theorem cntLe_eq_length (k : α → Nat) (l : List α) (c : Nat)
    (h : ∀ x ∈ l, k x ≤ c) : cntLe k l c = l.length := by
  unfold cntLe
  induction l with
  | nil => rfl
  | cons x xs ih =>
    have hx := h x (by simp)
    simp only [List.countP_cons, decide_eq_true_eq, if_pos hx, List.length_cons]
    rw [ih (fun y hy => h y (by simp [hy]))]

theorem countLoop_length (k : α → Nat) (l : List α) : (countLoop k l).length = 128 := by
  unfold countLoop
  have aux : ∀ (m : List α) (cnt : List Nat),
      (m.foldl (fun cnt x => cnt.set (k x) (cnt.getD (k x) 0 + 1)) cnt).length = cnt.length := by
    intro m
    induction m with
    | nil => intro cnt; rfl
    | cons x xs ih => intro cnt; rw [List.foldl_cons, ih, List.length_set]
  rw [aux, List.length_replicate]

theorem countLoop_getD (k : α → Nat) (l : List α) (c : Nat) (hc : c < 128) :
    (countLoop k l).getD c 0 = cntEq k l c := by
  have aux : ∀ (m : List α) (cnt : List Nat), cnt.length = 128 →
      (m.foldl (fun cnt x => cnt.set (k x) (cnt.getD (k x) 0 + 1)) cnt).getD c 0
        = cnt.getD c 0 + cntEq k m c := by
    intro m
    induction m with
    | nil => intro cnt _; simp [cntEq]
    | cons x xs ih =>
      intro cnt hlen
      rw [List.foldl_cons, ih _ (by rw [List.length_set]; exact hlen)]
      have hstep : (cnt.set (k x) (cnt.getD (k x) 0 + 1)).getD c 0
          = cnt.getD c 0 + (if k x = c then 1 else 0) := by
        by_cases hkc : k x = c
        · subst hkc
          simp [List.getD_eq_getElem?_getD, List.getElem?_set_self (hlen ▸ hc)]
        · rw [List.getD_eq_getElem?_getD, List.getElem?_set_ne hkc,
            ← List.getD_eq_getElem?_getD, if_neg hkc]
          omega
      rw [hstep]
      simp only [cntEq, List.countP_cons, decide_eq_true_eq]
      split_ifs <;> omega
  unfold countLoop
  rw [aux _ _ (List.length_replicate _ _)]
  have h0 : (List.replicate 128 (0 : Nat)).getD c 0 = 0 := by
    rw [List.getD_eq_getElem?_getD, List.getElem?_replicate_of_lt hc]
    rfl
  rw [h0, Nat.zero_add]

theorem sumTo_zero (cl : List Nat) : sumTo cl 0 = cl.getD 0 0 := by
  simp [sumTo, List.range_succ]

theorem sumTo_succ (cl : List Nat) (c : Nat) :
    sumTo cl (c + 1) = sumTo cl c + cl.getD (c + 1) 0 := by
  unfold sumTo
  rw [List.range_succ (n := c + 1), List.map_append, List.sum_append]
  simp

theorem cumLoop_length (cl : List Nat) : (cumLoop cl).length = cl.length := by
  unfold cumLoop
  have aux : ∀ (idxs : List Nat) (c : List Nat),
      (idxs.foldl (fun c i => c.set i (c.getD i 0 + c.getD (i - 1) 0)) c).length = c.length := by
    intro idxs
    induction idxs with
    | nil => intro c; rfl
    | cons j js ih => intro c; rw [List.foldl_cons, ih, List.length_set]
  exact aux _ _

theorem cumLoop_getD (cl : List Nat) (hcl : cl.length = 128) (c : Nat) (hc : c < 128) :
    (cumLoop cl).getD c 0 = sumTo cl c := by
  have auxlen : ∀ (idxs : List Nat) (a : List Nat),
      (idxs.foldl (fun c i => c.set i (c.getD i 0 + c.getD (i - 1) 0)) a).length = a.length := by
    intro idxs
    induction idxs with
    | nil => intro a; rfl
    | cons j js ih => intro a; rw [List.foldl_cons, ih, List.length_set]
  have aux : ∀ (K : Nat), K ≤ 127 → ∀ i, i < 128 →
      ((List.range' 1 K).foldl (fun c i => c.set i (c.getD i 0 + c.getD (i - 1) 0)) cl).getD i 0
        = if i ≤ K then sumTo cl i else cl.getD i 0 := by
    intro K
    induction K with
    | zero =>
      intro _ i hi
      simp only [List.range', List.foldl_nil]
      by_cases hi0 : i ≤ 0
      · have : i = 0 := Nat.le_zero.mp hi0
        subst this
        rw [if_pos (Nat.le_refl 0), sumTo_zero]
      · rw [if_neg hi0]
    | succ K ih =>
      intro hK i hi
      have hK' : K ≤ 127 := Nat.le_of_succ_le hK
      rw [List.range'_concat, List.foldl_append, List.foldl_cons, List.foldl_nil]
      set A := (List.range' 1 K).foldl
        (fun c i => c.set i (c.getD i 0 + c.getD (i - 1) 0)) cl with hA
      have hAlen : A.length = 128 := by rw [hA, auxlen, hcl]
      have hsucc : 1 + 1 * K = K + 1 := by omega
      rw [hsucc]
      have hvalK1 : A.getD (K + 1) 0 = cl.getD (K + 1) 0 := by
        rw [ih hK' (K + 1) (by omega), if_neg (by omega)]
      have hvalK : A.getD K 0 = sumTo cl K := by
        rw [ih hK' K (by omega), if_pos (Nat.le_refl K)]
      by_cases hiK : i = K + 1
      · subst hiK
        rw [List.getD_eq_getElem?_getD,
          List.getElem?_set_self (by rw [hAlen]; omega)]
        simp only [Option.getD_some, Nat.add_sub_cancel]
        rw [hvalK1, hvalK, if_pos (Nat.le_refl _), sumTo_succ]
        omega
      · rw [List.getD_eq_getElem?_getD, List.getElem?_set_ne (fun h => hiK h.symm),
          ← List.getD_eq_getElem?_getD, ih hK' i hi]
        by_cases hik2 : i ≤ K
        · rw [if_pos hik2, if_pos (by omega)]
        · rw [if_neg hik2, if_neg (by omega)]
  unfold cumLoop
  rw [aux 127 (Nat.le_refl _) c hc, if_pos (by omega)]

theorem sumTo_countLoop (k : α → Nat) (l : List α) (c : Nat) (hc : c < 128) :
    sumTo (countLoop k l) c = cntLe k l c := by
  induction c with
  | zero =>
    rw [sumTo_zero, countLoop_getD k l 0 (by omega), cntLe_zero]
  | succ c ih =>
    rw [sumTo_succ, ih (by omega), countLoop_getD k l (c + 1) hc, cntLe_succ]

/-- The cumulative count list of `_stableSort`: entry `c` holds the number of
items whose key is at most `c`. -/
theorem cumLoop_countLoop_getD (k : α → Nat) (l : List α) (c : Nat) (hc : c < 128) :
    (cumLoop (countLoop k l)).getD c 0 = cntLe k l c := by
  rw [cumLoop_getD _ (countLoop_length k l) c hc, sumTo_countLoop k l c hc]

/-! ### The placement loop: characterisation of `placeLoop`

`placeLoop_spec` is the loop invariant of the reverse placement loop of
`_stableSort`, stated for an arbitrary family `B` of bucket base positions:
if on entry the counter for each key `c` sits at `B c + cntEq k l c` and the
target intervals `[B c, B c + cntEq k l c)` are separated and in range, then
on exit the counter for `c` has come down to `B c`, the interval for `c`
holds exactly the items of `l` with key `c` in their input order, and all
other positions of `out` are untouched. -/

theorem placeLoop_spec (k : α → Nat) :
    ∀ (l : List α) (B : Nat → Nat) (cnt : List Nat) (out : List (Option α)),
      cnt.length = 128 →
      (∀ x ∈ l, k x < 128) →
      (∀ c, c < 128 → cnt.getD c 0 = B c + cntEq k l c) →
      (∀ c c', c < c' → c' < 128 → B c + cntEq k l c ≤ B c') →
      (∀ c, c < 128 → B c + cntEq k l c ≤ out.length) →
      (placeLoop k l cnt out).1.length = 128 ∧
      (placeLoop k l cnt out).2.length = out.length ∧
      (∀ c, c < 128 → (placeLoop k l cnt out).1.getD c 0 = B c) ∧
      (∀ c, c < 128 → ∀ j x, (l.filter (fun y => decide (k y = c)))[j]? = some x →
        (placeLoop k l cnt out).2[B c + j]? = some (some x)) ∧
      (∀ p, (∀ c, c < 128 → ¬(B c ≤ p ∧ p < B c + cntEq k l c)) →
        (placeLoop k l cnt out).2[p]? = out[p]?) := by
  intro l
  induction l with
  | nil =>
    intro B cnt out hclen _ hcnt _ _
    refine ⟨hclen, rfl, ?_, ?_, fun p _ => rfl⟩
    · intro c hc
      have h := hcnt c hc
      simpa [cntEq] using h
    · intro c hc j x hx
      simp at hx
  | cons x xs ih =>
    intro B cnt out hclen hv hcnt hsep hbound
    have hkx : k x < 128 := hv x (List.mem_cons_self x xs)
    set B' : Nat → Nat := fun c => if c = k x then B c + 1 else B c with hB'
    have hcntEq_cons : ∀ c, cntEq k (x :: xs) c
        = cntEq k xs c + (if k x = c then 1 else 0) := by
      intro c; simp [cntEq, List.countP_cons]
    have hB'val : ∀ c, B' c = if c = k x then B c + 1 else B c := fun c => rfl
    have hshift : ∀ c, B' c + cntEq k xs c ≤ B c + cntEq k (x :: xs) c := by
      intro c
      rw [hB'val, hcntEq_cons]
      split_ifs <;> omega
    have hBle : ∀ c, B c ≤ B' c := by
      intro c
      rw [hB'val]
      split_ifs <;> omega
    have hone : 1 ≤ cntEq k (x :: xs) (k x) := by
      rw [hcntEq_cons, if_pos rfl]
      omega
    have hr := ih B' cnt out hclen (fun y hy => hv y (List.mem_cons_of_mem _ hy))
      (fun c hc => by
        rw [hcnt c hc, hB'val, hcntEq_cons]
        split_ifs <;> omega)
      (fun c c' hcc hc' => le_trans (hshift c) (le_trans (hsep c c' hcc hc')
        (hBle c')))
      (fun c hc => le_trans (hshift c) (hbound c hc))
    obtain ⟨hr1len, hr2len, hrcnt, hrbuck, hrout⟩ := hr
    set r := placeLoop k xs cnt out with hrdef
    have hX : r.1.getD (k x) 0 = B (k x) + 1 := by
      rw [hrcnt (k x) hkx, hB'val, if_pos rfl]
    have hplace : placeLoop k (x :: xs) cnt out
        = (r.1.set (k x) (B (k x)), r.2.set (B (k x)) (some x)) := by
      show (r.1.set (k x) (r.1.getD (k x) 0 - 1),
        r.2.set (r.1.getD (k x) 0 - 1) (some x)) = _
      rw [hX]
      simp
    have hBkx_lt : B (k x) < out.length := by
      have := hbound (k x) hkx
      omega
    rw [hplace]
    refine ⟨by rw [List.length_set]; exact hr1len,
      by rw [List.length_set]; exact hr2len, ?_, ?_, ?_⟩
    · -- final counters
      intro c hc
      by_cases hckx : c = k x
      · subst hckx
        rw [List.getD_eq_getElem?_getD, List.getElem?_set_self (by rw [hr1len]; exact hkx)]
        rfl
      · rw [List.getD_eq_getElem?_getD, List.getElem?_set_ne (fun h => hckx h.symm),
          ← List.getD_eq_getElem?_getD, hrcnt c hc, hB'val, if_neg hckx]
    · -- bucket contents
      intro c hc j y hy
      by_cases hckx : c = k x
      · subst hckx
        rw [List.filter_cons, if_pos (by simp)] at hy
        cases j with
        | zero =>
          simp only [List.getElem?_cons_zero, Option.some.injEq] at hy
          subst hy
          rw [Nat.add_zero, List.getElem?_set_self (by rw [hr2len]; exact hBkx_lt)]
        | succ j =>
          rw [List.getElem?_cons_succ] at hy
          have hne : B (k x) ≠ B (k x) + (j + 1) := by omega
          rw [List.getElem?_set_ne hne]
          have := hrbuck (k x) hkx j y hy
          rwa [hB'val, if_pos rfl, Nat.add_assoc, Nat.add_comm 1 j] at this
      · rw [List.filter_cons,
          if_neg (by simp only [decide_eq_true_eq]; exact Ne.symm hckx)] at hy
        have hjlt : j < cntEq k xs c := by
          have hlen := List.getElem?_eq_some_iff.mp hy
          obtain ⟨hjl, _⟩ := hlen
          rwa [← List.countP_eq_length_filter] at hjl
        have hne : B (k x) ≠ B c + j := by
          rcases Nat.lt_or_ge c (k x) with hlt | hge
          · have h1 := hsep c (k x) hlt hkx
            have h2 := hcntEq_cons c
            have h3 := hcntEq_cons (k x)
            omega
          · have hgt : k x < c := lt_of_le_of_ne hge (fun h => hckx h.symm)
            have h1 := hsep (k x) c hgt hc
            omega
        rw [List.getElem?_set_ne hne]
        have := hrbuck c hc j y hy
        rwa [hB'val, if_neg hckx] at this
    · -- untouched positions
      intro p hp
      have hpk := hp (k x) hkx
      have hpne : B (k x) ≠ p := by omega
      rw [List.getElem?_set_ne hpne]
      refine hrout p (fun c hc => ?_)
      have h1 := hp c hc
      have h2 := hshift c
      have h3 := hBle c
      omega

/-! ### `_stableSort` sorts into key buckets -/

theorem placeLoop_snd_length (k : α → Nat) :
    ∀ (l : List α) (cnt : List Nat) (out : List (Option α)),
      ((placeLoop k l cnt out).2).length = out.length := by
  intro l
  induction l with
  | nil => intro cnt out; rfl
  | cons x xs ih =>
    intro cnt out
    show ((placeLoop k xs cnt out).2.set _ _).length = _
    rw [List.length_set, ih]

/-- `_stableSort` returns a list of the same length as its input,
unconditionally (`out_list = [0] * n`). -/
theorem stableSort_length (k : α → Nat → Nat) (dflt : α) (index : Nat) (l : List α) :
    (stableSort k dflt index l).length = l.length := by
  unfold stableSort
  rw [List.length_map, placeLoop_snd_length, List.length_replicate]

theorem buckets_getElem? (k : α → Nat) (l : List α) (c : Nat) (hc : c < 128) :
    (buckets k l)[c]? = some (l.filter (fun y => decide (k y = c))) := by
  unfold buckets
  rw [List.getElem?_map, List.getElem?_range hc]
  rfl

theorem buckets_take_sum (k : α → Nat) (l : List α) :
    ∀ c, c ≤ 128 → ((((buckets k l).take c).map List.length).sum = cntLt k l c) := by
  intro c
  induction c with
  | zero =>
    intro _
    rw [List.take_zero, cntLt_zero]
    rfl
  | succ c ih =>
    intro hc
    rw [List.take_succ, List.map_append, List.sum_append, ih (by omega),
      buckets_getElem? k l c (by omega)]
    simp only [Option.toList_some, List.map_cons, List.map_nil, List.sum_cons,
      List.sum_nil, Nat.add_zero]
    rw [← List.countP_eq_length_filter]
    rw [cntLt_succ, cntLe_eq_cntLt_add]
    rfl

theorem buckets_flatten_length (k : α → Nat) (l : List α)
    (hv : ∀ x ∈ l, k x < 128) : ((buckets k l).flatten).length = l.length := by
  rw [List.length_flatten]
  have h128 : (buckets k l).length = 128 := by
    unfold buckets
    rw [List.length_map, List.length_range]
  have htake : (buckets k l).take 128 = buckets k l := by
    apply List.take_of_length_le
    rw [h128]
  have hsum := buckets_take_sum k l 128 (Nat.le_refl _)
  rw [htake] at hsum
  have h127 : cntLt k l 128 = cntLe k l 127 := cntLt_succ k l 127
  rw [hsum, h127]
  exact cntLe_eq_length k l 127 (fun x hx => by have := hv x hx; omega)

theorem getElem?_flatten_of :
    ∀ (LS : List (List β)) (m : Nat) (bm : List β), LS[m]? = some bm →
      ∀ j, j < bm.length →
        (LS.flatten)[(((LS.take m).map List.length).sum + j)]? = bm[j]? := by
  intro LS
  induction LS with
  | nil => intro m bm hm; simp at hm
  | cons L LS ih =>
    intro m bm hm j hj
    cases m with
    | zero =>
      rw [List.getElem?_cons_zero, Option.some.injEq] at hm
      subst hm
      rw [List.take_zero, List.map_nil, List.sum_nil, Nat.zero_add, List.flatten_cons,
        List.getElem?_append_left hj]
    | succ m =>
      rw [List.getElem?_cons_succ] at hm
      rw [List.take_succ_cons, List.map_cons, List.sum_cons, List.flatten_cons]
      rw [Nat.add_assoc, List.getElem?_append_right (Nat.le_add_right _ _),
        Nat.add_sub_cancel_left]
      exact ih m bm hm j hj

theorem exists_bucket_of_lt (k : α → Nat) (l : List α) :
    ∀ (C : Nat), ∀ p, p < cntLe k l C → ∃ c, c ≤ C ∧ cntLt k l c ≤ p ∧ p < cntLe k l c := by
  intro C
  induction C with
  | zero =>
    intro p hp
    exact ⟨0, Nat.le_refl _, by rw [cntLt_zero]; omega, hp⟩
  | succ C ih =>
    intro p hp
    by_cases hpC : p < cntLe k l C
    · obtain ⟨c, hc, h1, h2⟩ := ih p hpC
      exact ⟨c, by omega, h1, h2⟩
    · exact ⟨C + 1, Nat.le_refl _, by rw [cntLt_succ]; omega, hp⟩

/-- The bucket characterisation of `_stableSort`: on input whose keys at
`index` are all below 128 it returns the concatenation, in increasing key
order, of the groups of items sharing a key, each group in input order. -/
theorem stableSort_eq_flatten (k : α → Nat → Nat) (dflt : α) (index : Nat) (l : List α)
    (hv : ∀ x ∈ l, k x index < 128) :
    stableSort k dflt index l = (buckets (fun x => k x index) l).flatten := by
  set kk : α → Nat := fun x => k x index with hkk
  have hvk : ∀ x ∈ l, kk x < 128 := hv
  have hspec := placeLoop_spec kk l (cntLt kk l)
    (cumLoop (countLoop kk l)) (List.replicate l.length none)
    (by rw [cumLoop_length, countLoop_length])
    hv
    (fun c hc => by rw [cumLoop_countLoop_getD kk l c hc, cntLe_eq_cntLt_add])
    (fun c c' hcc hc' => by
      have := cntLe_le_cntLt kk l hcc
      have := cntLe_eq_cntLt_add kk l c
      omega)
    (fun c hc => by
      rw [List.length_replicate]
      have := cntLe_le_length kk l c
      have := cntLe_eq_cntLt_add kk l c
      omega)
  obtain ⟨h1len, h2len, hcnt, hbuck, hout⟩ := hspec
  set out2 := (placeLoop kk l (cumLoop (countLoop kk l)) (List.replicate l.length none)).2
    with hout2
  have hlenout2 : out2.length = l.length := by rw [h2len, List.length_replicate]
  have hcnt127 : cntLe kk l 127 = l.length :=
    cntLe_eq_length kk l 127 (fun x hx => by have := hvk x hx; omega)
  have key : out2 = ((buckets kk l).flatten).map some := by
    apply List.ext_getElem?
    intro p
    by_cases hp : p < l.length
    · have hpC : p < cntLe kk l 127 := by omega
      obtain ⟨c, hcC, hc1, hc2⟩ := exists_bucket_of_lt kk l 127 p hpC
      have hc128 : c < 128 := by omega
      have hcntc := cntLe_eq_cntLt_add kk l c
      set j := p - cntLt kk l c with hj
      have hjlt : j < cntEq kk l c := by omega
      have hjlen : j < (l.filter (fun y => decide (kk y = c))).length := by
        rw [← List.countP_eq_length_filter]
        exact hjlt
      obtain ⟨y, hy⟩ : ∃ y, (l.filter (fun y => decide (kk y = c)))[j]? = some y :=
        ⟨_, List.getElem?_eq_getElem hjlen⟩
      have hpeq : p = cntLt kk l c + j := by omega
      rw [hpeq]
      rw [hbuck c hc128 j _ hy]
      have hofs : (((buckets kk l).take c).map List.length).sum = cntLt kk l c :=
        buckets_take_sum kk l c (by omega)
      rw [List.getElem?_map, ← hofs,
        getElem?_flatten_of (buckets kk l) c _ (buckets_getElem? kk l c hc128) j hjlen, hy]
      rfl
    · rw [List.getElem?_eq_none (by omega : out2.length ≤ p),
        List.getElem?_eq_none]
      rw [List.length_map, buckets_flatten_length kk l hvk]
      omega
  unfold stableSort
  rw [← hkk, ← hout2, key, List.map_map]
  have : ((fun o => Option.getD o dflt) ∘ some) = id := by
    funext y
    rfl
  rw [this, List.map_id]

/-! ### Permutation, sortedness and stability of `_stableSort` -/

theorem flatten_map_filter_perm (kk : α → Nat) :
    ∀ (cs : List Nat), cs.Nodup → ∀ (x : α) (xs : List α), kk x ∈ cs →
      List.Perm
        ((cs.map (fun c => (x :: xs).filter (fun y => decide (kk y = c)))).flatten)
        (x :: (cs.map (fun c => xs.filter (fun y => decide (kk y = c)))).flatten) := by
  intro cs
  induction cs with
  | nil =>
    intro _ x xs hx
    simp at hx
  | cons c cs ih =>
    intro hnd x xs hx
    obtain ⟨hcnotin, hndtail⟩ := List.nodup_cons.mp hnd
    rw [List.map_cons, List.map_cons, List.flatten_cons, List.flatten_cons]
    by_cases hcx : kk x = c
    · rw [List.filter_cons, if_pos (by simp [hcx])]
      have hrest : cs.map (fun c => (x :: xs).filter (fun y => decide (kk y = c)))
          = cs.map (fun c => xs.filter (fun y => decide (kk y = c))) := by
        apply List.map_congr_left
        intro c2 hc2
        rw [List.filter_cons, if_neg ?hne]
        case hne =>
          simp only [decide_eq_true_eq]
          intro h
          have hcc : c = c2 := by rw [← hcx, h]
          apply hcnotin
          rw [hcc]
          exact hc2
      rw [hrest, List.cons_append]
    · have hmem : kk x ∈ cs := by
        rcases List.mem_cons.mp hx with h | h
        · exact absurd h hcx
        · exact h
      rw [List.filter_cons, if_neg (by simp [hcx])]
      exact (List.Perm.append_left _ (ih hndtail x xs hmem)).trans List.perm_middle

theorem buckets_flatten_perm (kk : α → Nat) :
    ∀ (l : List α), (∀ x ∈ l, kk x < 128) → List.Perm ((buckets kk l).flatten) l := by
  intro l
  induction l with
  | nil =>
    intro _
    have h : (buckets kk ([] : List α)).flatten = [] := by
      rw [List.flatten_eq_nil_iff]
      intro m hm
      unfold buckets at hm
      rw [List.mem_map] at hm
      obtain ⟨c, _, rfl⟩ := hm
      rfl
    rw [h]
  | cons x xs ih =>
    intro hv
    have h1 := flatten_map_filter_perm kk (List.range 128) (List.nodup_range 128) x xs
      (by rw [List.mem_range]; exact hv x (List.mem_cons_self _ _))
    exact h1.trans ((ih (fun y hy => hv y (List.mem_cons_of_mem _ hy))).cons x)

/-- `_stableSort` permutes its input (for keys in range). -/
theorem stableSort_perm (k : α → Nat → Nat) (dflt : α) (index : Nat) (l : List α)
    (hv : ∀ x ∈ l, k x index < 128) : List.Perm (stableSort k dflt index l) l := by
  rw [stableSort_eq_flatten k dflt index l hv]
  exact buckets_flatten_perm _ l hv

/-- `_stableSort` sorts by the key at `index` (for keys in range). -/
theorem stableSort_sorted (k : α → Nat → Nat) (dflt : α) (index : Nat) (l : List α)
    (hv : ∀ x ∈ l, k x index < 128) :
    List.Pairwise (fun x y => k x index ≤ k y index) (stableSort k dflt index l) := by
  rw [stableSort_eq_flatten k dflt index l hv]
  rw [List.pairwise_flatten]
  constructor
  · intro m hm
    unfold buckets at hm
    rw [List.mem_map] at hm
    obtain ⟨c, _, rfl⟩ := hm
    apply List.pairwise_of_forall_mem_list
    intro a ha b hb
    have ha2 := List.of_mem_filter ha
    have hb2 := List.of_mem_filter hb
    simp only [decide_eq_true_eq] at ha2 hb2
    rw [ha2, hb2]
  · unfold buckets
    rw [List.pairwise_map]
    refine (List.pairwise_lt_range 128).imp ?_
    intro c c' hcc x hx y hy
    have hx2 := List.of_mem_filter hx
    have hy2 := List.of_mem_filter hy
    simp only [decide_eq_true_eq] at hx2 hy2
    rw [hx2, hy2]
    exact Nat.le_of_lt hcc

theorem flatten_map_single (g : Nat → List β) (F : List β) :
    ∀ (cs : List Nat), cs.Nodup → ∀ c₀, c₀ ∈ cs →
      (∀ c ∈ cs, g c = if c = c₀ then F else []) → (cs.map g).flatten = F := by
  intro cs
  induction cs with
  | nil =>
    intro _ c₀ hc₀
    simp at hc₀
  | cons c cs ih =>
    intro hnd c₀ hc₀ hg
    obtain ⟨hcnotin, hndtail⟩ := List.nodup_cons.mp hnd
    rw [List.map_cons, List.flatten_cons]
    by_cases hcc : c = c₀
    · rw [hg c (List.mem_cons_self _ _), if_pos hcc]
      have hrest : (cs.map g).flatten = [] := by
        rw [List.flatten_eq_nil_iff]
        intro m hm
        rw [List.mem_map] at hm
        obtain ⟨c2, hc2, rfl⟩ := hm
        rw [hg c2 (List.mem_cons_of_mem _ hc2), if_neg ?hne]
        case hne =>
          intro h
          apply hcnotin
          rw [hcc, ← h]
          exact hc2
      rw [hrest, List.append_nil]
    · rw [hg c (List.mem_cons_self _ _), if_neg hcc, List.nil_append]
      have hmem : c₀ ∈ cs := by
        rcases List.mem_cons.mp hc₀ with h | h
        · exact absurd h.symm hcc
        · exact h
      exact ih hndtail c₀ hmem (fun c2 hc2 => hg c2 (List.mem_cons_of_mem _ hc2))

/-- Stability of `_stableSort`: any class of items that all share the same
key at `index` comes out exactly as it went in (same items, same relative
order).  The class is given by a predicate `p` that is constant on keys. -/
theorem stableSort_filter (k : α → Nat → Nat) (dflt : α) (index : Nat) (l : List α)
    (hv : ∀ x ∈ l, k x index < 128) (p : α → Bool)
    (hp : ∀ x y, p x = true → p y = true → k x index = k y index) :
    (stableSort k dflt index l).filter p = l.filter p := by
  rw [stableSort_eq_flatten k dflt index l hv]
  rw [List.filter_flatten]
  unfold buckets
  rw [List.map_map]
  by_cases hex : ∃ x, x ∈ l ∧ p x = true
  · obtain ⟨x₀, hx₀l, hx₀p⟩ := hex
    apply flatten_map_single _ _ (List.range 128) (List.nodup_range 128) (k x₀ index)
      (by rw [List.mem_range]; exact hv x₀ hx₀l)
    intro c _
    show (l.filter (fun y => decide (k y index = c))).filter p = _
    rw [List.filter_filter]
    by_cases hcc : c = k x₀ index
    · rw [if_pos hcc]
      apply List.filter_congr
      intro a _
      cases hpa : p a with
      | false => simp
      | true =>
        have := hp a x₀ hpa hx₀p
        simp [this, hcc]
    · rw [if_neg hcc]
      rw [List.filter_eq_nil_iff]
      intro a _ hcon
      simp only [Bool.and_eq_true, decide_eq_true_eq] at hcon
      obtain ⟨hpa, hka⟩ := hcon
      exact hcc (by rw [← hka, hp a x₀ hpa hx₀p])
  · have hnil : l.filter p = [] := by
      rw [List.filter_eq_nil_iff]
      intro a ha hpa
      exact hex ⟨a, ha, hpa⟩
    rw [hnil, List.flatten_eq_nil_iff]
    intro m hm
    rw [List.mem_map] at hm
    obtain ⟨c, _, rfl⟩ := hm
    show (l.filter (fun y => decide (k y index = c))).filter p = []
    rw [List.filter_eq_nil_iff]
    intro a ha hpa
    exact hex ⟨a, (List.mem_filter.mp ha).1, hpa⟩

/-! ### Lemmas about maximal runs -/

theorem runs_nil (k : α → Nat) : runs k [] = [] := by
  simp [runs]

theorem runs_cons (k : α → Nat) (x : α) (xs : List α) :
    runs k (x :: xs) = (x :: xs.takeWhile (fun y => k y == k x)) ::
      runs k (xs.dropWhile (fun y => k y == k x)) := by
  simp [runs]

theorem dropWhile_head_false (p : α → Bool) :
    ∀ (l : List α) (y : α) (ys : List α), l.dropWhile p = y :: ys → p y = false := by
  intro l
  induction l with
  | nil => intro y ys h; simp at h
  | cons a as ih =>
    intro y ys h
    rw [List.dropWhile_cons] at h
    by_cases hpa : p a = true
    · rw [if_pos hpa] at h
      exact ih y ys h
    · rw [if_neg hpa] at h
      cases h
      exact Bool.not_eq_true _ |>.mp hpa

theorem runs_flatten (k : α → Nat) :
    ∀ (n : Nat) (l : List α), l.length ≤ n → (runs k l).flatten = l := by
  intro n
  induction n with
  | zero =>
    intro l hl
    have : l = [] := List.length_eq_zero.mp (Nat.le_zero.mp hl)
    subst this
    rw [runs_nil]
    rfl
  | succ n ih =>
    intro l hl
    cases l with
    | nil =>
      rw [runs_nil]
      rfl
    | cons x xs =>
      rw [runs_cons, List.flatten_cons, List.cons_append]
      have hd : (xs.dropWhile (fun y => k y == k x)).length ≤ n := by
        have h1 := (List.dropWhile_sublist (l := xs) (fun y => k y == k x)).length_le
        have h2 : xs.length ≤ n := by
          have := hl
          simp only [List.length_cons] at this
          omega
        omega
      rw [ih _ hd, List.takeWhile_append_dropWhile]

theorem runs_flatten_self (k : α → Nat) (l : List α) : (runs k l).flatten = l :=
  runs_flatten k l.length l (Nat.le_refl _)

theorem runs_homog (k : α → Nat) :
    ∀ (n : Nat) (l : List α), l.length ≤ n → ∀ r ∈ runs k l,
      r ≠ [] ∧ ∀ x ∈ r, ∀ y ∈ r, k x = k y := by
  intro n
  induction n with
  | zero =>
    intro l hl r hr
    have : l = [] := List.length_eq_zero.mp (Nat.le_zero.mp hl)
    subst this
    rw [runs_nil] at hr
    simp at hr
  | succ n ih =>
    intro l hl r hr
    cases l with
    | nil =>
      rw [runs_nil] at hr
      simp at hr
    | cons x xs =>
      rw [runs_cons] at hr
      have hrr := hr
      have hhead : ∀ z ∈ x :: xs.takeWhile (fun y => k y == k x), k z = k x := by
        intro z hz
        rcases List.mem_cons.mp hz with h | h
        · rw [h]
        · have := List.mem_takeWhile_imp h
          simpa using this
      rcases List.mem_cons.mp hrr with h | h
      · subst h
        refine ⟨by simp, ?_⟩
        intro a ha b hb
        rw [hhead a ha, hhead b hb]
      · have hd : (xs.dropWhile (fun y => k y == k x)).length ≤ n := by
          have h1 := (List.dropWhile_sublist (l := xs) (fun y => k y == k x)).length_le
          have h2 : (x :: xs).length ≤ n + 1 := hl
          simp only [List.length_cons] at h2
          omega
        exact ih _ hd r h

theorem runs_homog_self (k : α → Nat) (l : List α) :
    ∀ r ∈ runs k l, r ≠ [] ∧ ∀ x ∈ r, ∀ y ∈ r, k x = k y :=
  runs_homog k l.length l (Nat.le_refl _)

/-- A nonempty list all of whose keys agree is a single run. -/
theorem runs_eq_single (k : α → Nat) (x : α) (xs : List α)
    (hhom : ∀ y ∈ xs, k y = k x) : runs k (x :: xs) = [x :: xs] := by
  rw [runs_cons]
  have ht : xs.takeWhile (fun y => k y == k x) = xs := by
    rw [List.takeWhile_eq_self_iff]
    intro y hy
    simp [hhom y hy]
  have hd : xs.dropWhile (fun y => k y == k x) = [] := by
    rw [List.dropWhile_eq_nil_iff]
    intro y hy
    simp [hhom y hy]
  rw [ht, hd, runs_nil]

/-- Splitting off the first maximal run: if the block `x :: a` is
key-homogeneous and `b` is empty or starts with a different key, then
`x :: a` is the first run of `(x :: a) ++ b`. -/
theorem runs_append (k : α → Nat) (x : α) (a b : List α)
    (hhom : ∀ y ∈ a, k y = k x)
    (hb : ∀ z, b.head? = some z → ¬ k z = k x) :
    runs k ((x :: a) ++ b) = (x :: a) :: runs k b := by
  rw [List.cons_append, runs_cons]
  have hq : ∀ y ∈ a, (fun y => k y == k x) y = true := by
    intro y hy
    simp [hhom y hy]
  rw [List.takeWhile_append_of_pos hq, List.dropWhile_append_of_pos hq]
  have htb : b.takeWhile (fun y => k y == k x) = [] := by
    cases b with
    | nil => rfl
    | cons z zs =>
      rw [List.takeWhile_cons, if_neg ?hz]
      case hz =>
        simp only [beq_iff_eq]
        exact hb z rfl
  have hdb : b.dropWhile (fun y => k y == k x) = b := by
    cases b with
    | nil => rfl
    | cons z zs =>
      rw [List.dropWhile_cons, if_neg ?hz2]
      case hz2 =>
        simp only [beq_iff_eq]
        exact hb z rfl
  rw [htb, hdb, List.append_nil]

/-- Runs of a list sorted by key are strictly increasing block-wise: every
item of an earlier run has a strictly smaller key than every item of a later
run. -/
theorem runs_sorted_pairwise (k : α → Nat) :
    ∀ (n : Nat) (l : List α), l.length ≤ n →
      List.Pairwise (fun x y => k x ≤ k y) l →
      List.Pairwise (fun r r2 => ∀ x ∈ r, ∀ y ∈ r2, k x < k y) (runs k l) := by
  intro n
  induction n with
  | zero =>
    intro l hl _
    have : l = [] := List.length_eq_zero.mp (Nat.le_zero.mp hl)
    subst this
    rw [runs_nil]
    exact List.Pairwise.nil
  | succ n ih =>
    intro l hl hsort
    cases l with
    | nil =>
      rw [runs_nil]
      exact List.Pairwise.nil
    | cons x xs =>
      rw [runs_cons]
      set dw := xs.dropWhile (fun y => k y == k x) with hdw
      have hxsle : ∀ y ∈ xs, k x ≤ k y := (List.pairwise_cons.mp hsort).1
      have hxs_sorted : List.Pairwise (fun x y => k x ≤ k y) xs :=
        (List.pairwise_cons.mp hsort).2
      have hdw_sorted : List.Pairwise (fun x y => k x ≤ k y) dw :=
        List.Pairwise.sublist (hdw ▸ List.dropWhile_sublist _) hxs_sorted
      have hdwlen : dw.length ≤ n := by
        have h1 := (List.dropWhile_sublist (l := xs) (fun y => k y == k x)).length_le
        rw [← hdw] at h1
        have h2 : (x :: xs).length ≤ n + 1 := hl
        simp only [List.length_cons] at h2
        omega
      refine List.pairwise_cons.mpr ⟨?_, ih dw hdwlen hdw_sorted⟩
      intro r2 hr2 a ha b hb
      -- `a` lies in the first run, so `k a = k x`
      have hka : k a = k x := by
        rcases List.mem_cons.mp ha with h | h
        · rw [h]
        · simpa using List.mem_takeWhile_imp h
      -- `b` lies in a later run, hence in `dw`
      have hbdw : b ∈ dw := by
        have : b ∈ (runs k dw).flatten := List.mem_flatten_of_mem hr2 hb
        rwa [runs_flatten_self] at this
      cases hdwcase : dw with
      | nil =>
        rw [hdwcase] at hbdw
        simp at hbdw
      | cons d dw2 =>
        have hd_false : (fun y => k y == k x) d = false :=
          dropWhile_head_false _ xs d dw2 (hdw ▸ hdwcase)
        have hdne : ¬ k d = k x := by simpa using hd_false
        have hddw : d ∈ dw := by rw [hdwcase]; exact List.mem_cons_self _ _
        have hxd : k x ≤ k d := hxsle d (List.Sublist.mem hddw (List.dropWhile_sublist _))
        have hdb : k d ≤ k b := by
          rw [hdwcase] at hdw_sorted hbdw
          rcases List.mem_cons.mp hbdw with h | h
          · rw [h]
          · exact (List.pairwise_cons.mp hdw_sorted).1 b h
        rw [hka]
        omega

/-! ### The while-loop of `_msd` processes the maximal runs of the sorted list -/

theorem pySlice_length (l : List α) (a b : Nat) (hab : a ≤ b) (hb : b ≤ l.length) :
    (pySlice l a b).length = b - a := by
  unfold pySlice
  rw [List.length_take, List.length_drop]
  omega

theorem msdLoop_zero (next : List α → List α) (k : α → Nat) (s : List α) (first last : Nat) :
    msdLoop next k s first last 0 = spliceAt s first last (next (pySlice s first last)) := rfl

theorem msdLoop_succ (next : List α → List α) (k : α → Nat) (s : List α)
    (first last r : Nat) :
    msdLoop next k s first last (r + 1) =
      if (s[last]?).map k = (s[first]?).map k then msdLoop next k s first (last + 1) r
      else msdLoop next k (spliceAt s first last (next (pySlice s first last)))
        last (last + 1) r := rfl

/-- Characterisation of the while-loop of `_msd`: started on `s` just inside
the current run (positions `first ≤ i < last` all share the key of
`s[first]`), with `remaining = s.length - last` iterations to go, it leaves
the prefix before `first` alone, splits the rest of `s` into its maximal
runs, and replaces each run by the result of the recursive call `next`. -/
theorem msdLoop_eq (next : List α → List α) (k : α → Nat)
    (hlen : ∀ m, (next m).length = m.length) :
    ∀ (r : Nat) (s : List α) (first last : Nat),
      s.length = last + r → first < last →
      (∀ i, first ≤ i → i < last → (s[i]?).map k = (s[first]?).map k) →
      msdLoop next k s first last r
        = s.take first ++ ((runs k (s.drop first)).map next).flatten := by
  intro r
  induction r with
  | zero =>
    intro s first last hr hfl hrun
    have hlast : last = s.length := by omega
    rw [msdLoop_zero]
    have hslice : pySlice s first last = s.drop first := by
      unfold pySlice
      apply List.take_of_length_le
      rw [List.length_drop]
      omega
    obtain ⟨xf, hxf⟩ : ∃ xf, s[first]? = some xf :=
      ⟨_, List.getElem?_eq_getElem (by omega)⟩
    have hhom : ∀ y ∈ s.drop first, k y = k xf := by
      intro y hy
      obtain ⟨j, hj⟩ := List.mem_iff_getElem?.mp hy
      rw [List.getElem?_drop] at hj
      have hjlt : first + j < last := by
        obtain ⟨hb, _⟩ := List.getElem?_eq_some_iff.mp hj
        omega
      have hx := hrun (first + j) (by omega) hjlt
      rw [hj, hxf] at hx
      simpa using hx
    cases hdrop : s.drop first with
    | nil =>
      exfalso
      have h0 : s.length - first = 0 := by rw [← List.length_drop, hdrop]; rfl
      omega
    | cons x0 rest =>
      have hx0 : x0 = xf := by
        have h0 : (s.drop first)[0]? = some x0 := by
          rw [hdrop]
          exact List.getElem?_cons_zero
        rw [List.getElem?_drop, Nat.add_zero, hxf] at h0
        exact (Option.some.injEq _ _ ▸ h0).symm
      have hhom2 : ∀ y ∈ rest, k y = k x0 := by
        intro y hy
        rw [hx0]
        exact hhom y (by rw [hdrop]; exact List.mem_cons_of_mem _ hy)
      rw [hslice, hdrop, runs_eq_single k x0 rest hhom2,
        List.map_cons, List.map_nil, List.flatten_cons, List.flatten_nil,
        List.append_nil]
      unfold spliceAt
      have hde : s.drop last = [] := by rw [hlast]; exact List.drop_length s
      rw [hde, List.append_nil]
  | succ r ih =>
    intro s first last hr hfl hrun
    have hlast_lt : last < s.length := by omega
    obtain ⟨a, ha⟩ : ∃ a, s[last]? = some a := ⟨_, List.getElem?_eq_getElem hlast_lt⟩
    obtain ⟨b, hb⟩ : ∃ b, s[first]? = some b := ⟨_, List.getElem?_eq_getElem (by omega)⟩
    by_cases hcond : (s[last]?).map k = (s[first]?).map k
    · rw [msdLoop_succ, if_pos hcond]
      refine ih s first (last + 1) (by omega) (by omega) ?_
      intro i hi1 hi2
      by_cases hil : i < last
      · exact hrun i hi1 hil
      · have : i = last := by omega
        rw [this]
        exact hcond
    · rw [msdLoop_succ, if_neg hcond]
      set m := next (pySlice s first last) with hm
      set s2 := spliceAt s first last m with hs2
      have hslice_len : (pySlice s first last).length = last - first :=
        pySlice_length s first last (by omega) (by omega)
      have hmlen : m.length = last - first := by rw [hm, hlen, hslice_len]
      have htakefirst_len : (s.take first).length = first := by
        rw [List.length_take]
        omega
      have hAB : s2 = (s.take first ++ m) ++ s.drop last := by
        rw [hs2]
        unfold spliceAt
        rw [List.append_assoc]
      have hABlen : (s.take first ++ m).length = last := by
        rw [List.length_append, htakefirst_len, hmlen]
        omega
      have hs2len : s2.length = s.length := by
        rw [hAB, List.length_append, hABlen, List.length_drop]
        omega
      have ihres := ih s2 last (last + 1) (by rw [hs2len]; omega) (by omega)
        (fun i hi1 hi2 => by
          have hieq : i = last := by omega
          rw [hieq])
      rw [ihres]
      have htake : s2.take last = s.take first ++ m := by
        rw [hAB]
        exact List.take_left' hABlen
      have hdrop2 : s2.drop last = s.drop last := by
        rw [hAB]
        exact List.drop_left' hABlen
      rw [htake, hdrop2]
      have hD : s.drop first = pySlice s first last ++ s.drop last := by
        conv =>
          lhs
          rw [← List.take_append_drop (last - first) (s.drop first)]
        unfold pySlice
        rw [List.drop_drop]
        have hfl2 : first + (last - first) = last := by omega
        rw [hfl2]
      cases hP : pySlice s first last with
      | nil =>
        exfalso
        rw [hP, List.length_nil] at hslice_len
        omega
      | cons x0 aa =>
        have hx0b : x0 = b := by
          have h0 : (pySlice s first last)[0]? = some x0 := by
            rw [hP]
            exact List.getElem?_cons_zero
          unfold pySlice at h0
          rw [List.getElem?_take_of_lt (by omega), List.getElem?_drop,
            Nat.add_zero, hb] at h0
          exact (Option.some.injEq _ _ ▸ h0).symm
        have hhomP : ∀ y ∈ aa, k y = k x0 := by
          intro y hy
          obtain ⟨j, hj⟩ := List.mem_iff_getElem?.mp hy
          have hj2 : (pySlice s first last)[j + 1]? = some y := by
            rw [hP, List.getElem?_cons_succ]
            exact hj
          have hjb : j + 1 < last - first := by
            obtain ⟨hbnd, _⟩ := List.getElem?_eq_some_iff.mp hj2
            omega
          unfold pySlice at hj2
          rw [List.getElem?_take_of_lt hjb, List.getElem?_drop] at hj2
          have hx := hrun (first + (j + 1)) (by omega) (by omega)
          rw [hj2, hb] at hx
          have hxy : k y = k b := by simpa using hx
          rw [hxy, hx0b]
        have hbne : ∀ z, (s.drop last).head? = some z → ¬ k z = k x0 := by
          intro z hz
          rw [List.head?_eq_getElem?, List.getElem?_drop, Nat.add_zero, ha] at hz
          rw [Option.some.injEq] at hz
          subst hz
          rw [hx0b]
          intro hk
          apply hcond
          rw [ha, hb]
          simp [hk]
        have hruns : runs k (s.drop first) = (x0 :: aa) :: runs k (s.drop last) := by
          rw [hD, hP]
          exact runs_append k x0 aa (s.drop last) hhomP hbne
        rw [hruns, List.map_cons, List.flatten_cons, hm, hP, List.append_assoc]

/-! ### Unfolding equations and the recurrence of `_msd` -/

theorem msdFuel_zero (k : α → Nat → Nat) (dflt : α) (index : Nat) (l : List α) :
    msdFuel k dflt 0 index l = l := rfl

theorem msdFuel_succ (k : α → Nat → Nat) (dflt : α) (fuel index : Nat) (l : List α) :
    msdFuel k dflt (fuel + 1) index l =
      if l.length < 2 then l
      else msdLoop (msdFuel k dflt fuel (index + 1)) (fun x => k x index)
        (stableSort k dflt index l) 0 1 (l.length - 1) := rfl

theorem msdLoop_length (next : List α → List α) (k : α → Nat)
    (hlen : ∀ m, (next m).length = m.length) :
    ∀ (r : Nat) (s : List α) (first last : Nat),
      first < last → s.length = last + r →
      (msdLoop next k s first last r).length = s.length := by
  intro r
  induction r with
  | zero =>
    intro s first last hfl hr
    rw [msdLoop_zero]
    unfold spliceAt
    rw [List.length_append, List.length_append, hlen, List.length_take,
      List.length_drop, pySlice_length s first last (by omega) (by omega)]
    omega
  | succ r ih =>
    intro s first last hfl hr
    rw [msdLoop_succ]
    split_ifs with hcond
    · rw [ih s first (last + 1) (by omega) (by omega)]
    · have hs2 : (spliceAt s first last (next (pySlice s first last))).length
          = s.length := by
        unfold spliceAt
        rw [List.length_append, List.length_append, hlen, List.length_take,
          List.length_drop, pySlice_length s first last (by omega) (by omega)]
        omega
      rw [ih _ last (last + 1) (by omega) (by rw [hs2]; omega), hs2]

/-- `_msd` returns a list of the same length as its input, unconditionally. -/
theorem msdFuel_length (k : α → Nat → Nat) (dflt : α) :
    ∀ (fuel index : Nat) (l : List α), (msdFuel k dflt fuel index l).length = l.length := by
  intro fuel
  induction fuel with
  | zero => intro index l; rfl
  | succ fuel ih =>
    intro index l
    rw [msdFuel_succ]
    split_ifs with h2
    · rfl
    · rw [msdLoop_length _ _ (fun m => ih (index + 1) m) (l.length - 1)
        (stableSort k dflt index l) 0 1 (by omega)
        (by rw [stableSort_length]; omega), stableSort_length]

/-- The recurrence of `_msd` (lines 65-91): when there are at least two items
and positions remain, `_msd` counting-sorts at the current position, splits
the result into its maximal runs of items sharing the current character, and
replaces each run by the recursive sort of that run one position deeper.
The recursion depth parameter (`max_index` is never re-derived) just steps
from `fuel + 1` to `fuel`. -/
theorem msdFuel_succ_eq (k : α → Nat → Nat) (dflt : α) (fuel index : Nat) (l : List α)
    (h2 : 2 ≤ l.length) :
    msdFuel k dflt (fuel + 1) index l =
      ((runs (fun x => k x index) (stableSort k dflt index l)).map
        (msdFuel k dflt fuel (index + 1))).flatten := by
  rw [msdFuel_succ, if_neg (by omega)]
  have hs := stableSort_length k dflt index l
  rw [msdLoop_eq (msdFuel k dflt fuel (index + 1)) (fun x => k x index)
    (fun m => msdFuel_length k dflt fuel (index + 1) m) (l.length - 1)
    (stableSort k dflt index l) 0 1 (by omega) (by omega)
    (fun i hi1 hi2 => by
      have : i = 0 := by omega
      rw [this])]
  rw [List.take_zero, List.drop_zero, List.nil_append]

theorem flatten_map_perm (next : List α → List α) :
    ∀ (rs : List (List α)), (∀ r2 ∈ rs, List.Perm (next r2) r2) →
      List.Perm ((rs.map next).flatten) rs.flatten := by
  intro rs
  induction rs with
  | nil => intro _; exact List.Perm.refl _
  | cons r2 rs ih =>
    intro h
    rw [List.map_cons, List.flatten_cons, List.flatten_cons]
    exact List.Perm.append (h r2 (List.mem_cons_self _ _))
      (ih (fun q hq => h q (List.mem_cons_of_mem _ hq)))

/-- `_msd` permutes its input, provided every character it can examine
(positions `index` to `index + fuel - 1`) has an ordinal below 128. -/
theorem msdFuel_perm (k : α → Nat → Nat) (dflt : α) :
    ∀ (fuel index : Nat) (l : List α),
      (∀ x ∈ l, ∀ j, index ≤ j → j < index + fuel → k x j < 128) →
      List.Perm (msdFuel k dflt fuel index l) l := by
  intro fuel
  induction fuel with
  | zero =>
    intro index l _
    exact List.Perm.refl l
  | succ fuel ih =>
    intro index l hv
    by_cases h2 : l.length < 2
    · rw [msdFuel_succ, if_pos h2]
    · rw [msdFuel_succ_eq k dflt fuel index l (by omega)]
      have hv0 : ∀ x ∈ l, k x index < 128 :=
        fun x hx => hv x hx index (Nat.le_refl _) (by omega)
      have hsp := stableSort_perm k dflt index l hv0
      have hrunmem : ∀ r2 ∈ runs (fun x => k x index) (stableSort k dflt index l),
          ∀ x ∈ r2, x ∈ l := by
        intro r2 hr2 x hx
        have hmem : x ∈ (runs (fun x => k x index) (stableSort k dflt index l)).flatten :=
          List.mem_flatten_of_mem hr2 hx
        rw [runs_flatten_self] at hmem
        exact hsp.mem_iff.mp hmem
      refine (flatten_map_perm _ _ ?_).trans ?_
      · intro r2 hr2
        refine ih (index + 1) r2 ?_
        intro x hx j hj1 hj2
        exact hv x (hrunmem r2 hr2 x hx) j (by omega) (by omega)
      · rw [runs_flatten_self]
        exact hsp

/-! ### Lexicographic comparison by ordinal -/

theorem lexLeB_refl : ∀ (a : Str), lexLeB a a = true := by
  intro a
  induction a with
  | nil => rfl
  | cons x xs ih => simp [lexLeB, ih]

theorem lexLeB_cons_lt {x y : Nat} (as bs : Str) (h : x < y) :
    lexLeB (x :: as) (y :: bs) = true := by
  simp [lexLeB, h]

theorem lexLeB_cons_same (x : Nat) (as bs : Str) :
    lexLeB (x :: as) (x :: bs) = lexLeB as bs := by
  simp [lexLeB]

theorem lexLeB_trans : ∀ (a b c : Str),
    lexLeB a b = true → lexLeB b c = true → lexLeB a c = true := by
  intro a
  induction a with
  | nil => intro b c _ _; rfl
  | cons x as ih =>
    intro b c hab hbc
    cases b with
    | nil => simp [lexLeB] at hab
    | cons y bs =>
      cases c with
      | nil => simp [lexLeB] at hbc
      | cons z cs =>
        simp only [lexLeB, Bool.or_eq_true, Bool.and_eq_true, decide_eq_true_eq,
          beq_iff_eq] at hab hbc ⊢
        rcases hab with h1 | ⟨h1, h1b⟩
        · rcases hbc with h2 | ⟨h2, h2b⟩
          · exact Or.inl (by omega)
          · exact Or.inl (by omega)
        · rcases hbc with h2 | ⟨h2, h2b⟩
          · exact Or.inl (by omega)
          · exact Or.inr ⟨by omega, ih bs cs h1b h2b⟩

theorem lexLeB_antisymm : ∀ (a b : Str),
    lexLeB a b = true → lexLeB b a = true → a = b := by
  intro a
  induction a with
  | nil =>
    intro b _ hba
    cases b with
    | nil => rfl
    | cons y bs => simp [lexLeB] at hba
  | cons x as ih =>
    intro b hab hba
    cases b with
    | nil => simp [lexLeB] at hab
    | cons y bs =>
      simp only [lexLeB, Bool.or_eq_true, Bool.and_eq_true, decide_eq_true_eq,
        beq_iff_eq] at hab hba
      rcases hab with h1 | ⟨h1, h1b⟩
      · rcases hba with h2 | ⟨h2, h2b⟩
        · omega
        · omega
      · rcases hba with h2 | ⟨h2, h2b⟩
        · omega
        · rw [h1, ih bs h1b h2b]

theorem lexLeB_total : ∀ (a b : Str), lexLeB a b = true ∨ lexLeB b a = true := by
  intro a
  induction a with
  | nil => intro b; exact Or.inl rfl
  | cons x as ih =>
    intro b
    cases b with
    | nil => exact Or.inr rfl
    | cons y bs =>
      rcases Nat.lt_trichotomy x y with h | h | h
      · exact Or.inl (lexLeB_cons_lt as bs h)
      · subst h
        rw [lexLeB_cons_same, lexLeB_cons_same]
        exact ih bs
      · exact Or.inr (lexLeB_cons_lt bs as h)

theorem keyVec_zero (k : α → Nat → Nat) (index : Nat) (x : α) :
    keyVec k index 0 x = [] := rfl

theorem keyVec_succ (k : α → Nat → Nat) (index fuel : Nat) (x : α) :
    keyVec k index (fuel + 1) x = k x index :: keyVec k (index + 1) fuel x := by
  unfold keyVec
  rw [List.range_succ_eq_map, List.map_cons, List.map_map]
  congr 1
  apply List.map_congr_left
  intro t _
  show k x (index + (t + 1)) = k x (index + 1 + t)
  congr 1
  omega

/-- `_msd` sorts lexicographically on the key vector of the positions it is
allowed to examine (for key ordinals below 128 there). -/
theorem msdFuel_sorted (k : α → Nat → Nat) (dflt : α) :
    ∀ (fuel index : Nat) (l : List α),
      (∀ x ∈ l, ∀ j, index ≤ j → j < index + fuel → k x j < 128) →
      List.Pairwise
        (fun x y => lexLeB (keyVec k index fuel x) (keyVec k index fuel y) = true)
        (msdFuel k dflt fuel index l) := by
  intro fuel
  induction fuel with
  | zero =>
    intro index l _
    exact List.pairwise_of_forall_mem_list (fun a _ b _ => rfl)
  | succ fuel ih =>
    intro index l hv
    by_cases h2 : l.length < 2
    · rw [msdFuel_succ, if_pos h2]
      cases l with
      | nil => exact List.Pairwise.nil
      | cons x xs =>
        cases xs with
        | nil => exact List.pairwise_singleton _ _
        | cons y ys =>
          exfalso
          simp only [List.length_cons] at h2
          omega
    · rw [msdFuel_succ_eq k dflt fuel index l (by omega)]
      have hv0 : ∀ x ∈ l, k x index < 128 :=
        fun x hx => hv x hx index (Nat.le_refl _) (by omega)
      have hsp := stableSort_perm k dflt index l hv0
      have hsorted := stableSort_sorted k dflt index l hv0
      have hrunmem : ∀ r2 ∈ runs (fun x => k x index) (stableSort k dflt index l),
          ∀ x ∈ r2, x ∈ l := by
        intro r2 hr2 x hx
        have hmem : x ∈ (runs (fun x => k x index) (stableSort k dflt index l)).flatten :=
          List.mem_flatten_of_mem hr2 hx
        rw [runs_flatten_self] at hmem
        exact hsp.mem_iff.mp hmem
      have hvrun : ∀ r2 ∈ runs (fun x => k x index) (stableSort k dflt index l),
          ∀ x ∈ r2, ∀ j, index + 1 ≤ j → j < index + 1 + fuel → k x j < 128 := by
        intro r2 hr2 x hx j hj1 hj2
        exact hv x (hrunmem r2 hr2 x hx) j (by omega) (by omega)
      rw [List.pairwise_flatten]
      constructor
      · intro m hm
        rw [List.mem_map] at hm
        obtain ⟨r2, hr2, rfl⟩ := hm
        have hhom := runs_homog_self (fun x => k x index) (stableSort k dflt index l) r2 hr2
        have hnextperm : List.Perm (msdFuel k dflt fuel (index + 1) r2) r2 :=
          msdFuel_perm k dflt fuel (index + 1) r2 (hvrun r2 hr2)
        have ihp := ih (index + 1) r2 (hvrun r2 hr2)
        refine ihp.imp_of_mem ?_
        intro a b ha hb hab
        have ha2 : a ∈ r2 := hnextperm.mem_iff.mp ha
        have hb2 : b ∈ r2 := hnextperm.mem_iff.mp hb
        have hk : k a index = k b index := hhom.2 a ha2 b hb2
        rw [keyVec_succ, keyVec_succ, hk, lexLeB_cons_same]
        exact hab
      · rw [List.pairwise_map]
        have hrsp := runs_sorted_pairwise (fun x => k x index)
          (stableSort k dflt index l).length (stableSort k dflt index l)
          (Nat.le_refl _) hsorted
        refine hrsp.imp_of_mem ?_
        intro r r2 hr hr2 himp x hx y hy
        have hxr : x ∈ r :=
          (msdFuel_perm k dflt fuel (index + 1) r (hvrun r hr)).mem_iff.mp hx
        have hyr : y ∈ r2 :=
          (msdFuel_perm k dflt fuel (index + 1) r2 (hvrun r2 hr2)).mem_iff.mp hy
        have hlt : k x index < k y index := himp x hxr y hyr
        rw [keyVec_succ, keyVec_succ]
        exact lexLeB_cons_lt _ _ hlt

/-- Stability of `_msd`: any class of items that agree on every character
position the sort may examine comes out exactly as it went in (same items,
same relative order).  In particular, for position-tagged items whose tag the
key function ignores, the copies of any given string keep their input
order. -/
theorem msdFuel_filter (k : α → Nat → Nat) (dflt : α) :
    ∀ (fuel index : Nat) (l : List α) (p : α → Bool),
      (∀ x ∈ l, ∀ j, index ≤ j → j < index + fuel → k x j < 128) →
      (∀ x y, p x = true → p y = true →
        ∀ j, index ≤ j → j < index + fuel → k x j = k y j) →
      (msdFuel k dflt fuel index l).filter p = l.filter p := by
  intro fuel
  induction fuel with
  | zero => intro index l p _ _; rfl
  | succ fuel ih =>
    intro index l p hv hp
    by_cases h2 : l.length < 2
    · rw [msdFuel_succ, if_pos h2]
    · rw [msdFuel_succ_eq k dflt fuel index l (by omega)]
      have hv0 : ∀ x ∈ l, k x index < 128 :=
        fun x hx => hv x hx index (Nat.le_refl _) (by omega)
      have hsp := stableSort_perm k dflt index l hv0
      have hrunmem : ∀ r2 ∈ runs (fun x => k x index) (stableSort k dflt index l),
          ∀ x ∈ r2, x ∈ l := by
        intro r2 hr2 x hx
        have hmem : x ∈ (runs (fun x => k x index) (stableSort k dflt index l)).flatten :=
          List.mem_flatten_of_mem hr2 hx
        rw [runs_flatten_self] at hmem
        exact hsp.mem_iff.mp hmem
      rw [List.filter_flatten, List.map_map]
      have hmaps : (runs (fun x => k x index) (stableSort k dflt index l)).map
            (List.filter p ∘ msdFuel k dflt fuel (index + 1))
          = (runs (fun x => k x index) (stableSort k dflt index l)).map
            (List.filter p) := by
        apply List.map_congr_left
        intro r2 hr2
        show (msdFuel k dflt fuel (index + 1) r2).filter p = r2.filter p
        refine ih (index + 1) r2 p ?_ ?_
        · intro x hx j hj1 hj2
          exact hv x (hrunmem r2 hr2 x hx) j (by omega) (by omega)
        · intro x y hx hy j hj1 hj2
          exact hp x y hx hy j (by omega) (by omega)
      rw [hmaps, ← List.filter_flatten, runs_flatten_self]
      exact stableSort_filter k dflt index l hv0 p
        (fun x y hx hy => hp x y hx hy index (Nat.le_refl _) (by omega))

/-! ### The pipeline only looks at items through their keys

The Python code accesses items only as `item[index]`; consequently the whole
pipeline commutes with any relabelling `f` of the items that preserves keys.
This is used to transfer results about position-tagged items to the actual
run on plain strings. -/

theorem placeLoop_cons (k : α → Nat) (x : α) (xs : List α) (cnt : List Nat)
    (out : List (Option α)) :
    placeLoop k (x :: xs) cnt out =
      ((placeLoop k xs cnt out).1.set (k x)
          ((placeLoop k xs cnt out).1.getD (k x) 0 - 1),
        (placeLoop k xs cnt out).2.set
          ((placeLoop k xs cnt out).1.getD (k x) 0 - 1) (some x)) := rfl

theorem countLoop_map (f : α → β) (kA : α → Nat) (kB : β → Nat)
    (hk : ∀ x, kB (f x) = kA x) (l : List α) :
    countLoop kB (l.map f) = countLoop kA l := by
  unfold countLoop
  rw [List.foldl_map]
  have : (fun (cnt : List Nat) (x : α) => cnt.set (kB (f x)) (cnt.getD (kB (f x)) 0 + 1))
      = fun cnt x => cnt.set (kA x) (cnt.getD (kA x) 0 + 1) := by
    funext cnt x
    rw [hk]
  rw [this]

theorem placeLoop_map (f : α → β) (kA : α → Nat) (kB : β → Nat)
    (hk : ∀ x, kB (f x) = kA x) :
    ∀ (l : List α) (cnt : List Nat) (out : List (Option α)),
      placeLoop kB (l.map f) cnt (out.map (Option.map f))
        = ((placeLoop kA l cnt out).1,
            (placeLoop kA l cnt out).2.map (Option.map f)) := by
  intro l
  induction l with
  | nil => intro cnt out; rfl
  | cons x xs ih =>
    intro cnt out
    rw [List.map_cons, placeLoop_cons, placeLoop_cons, ih, hk]
    refine congrArg₂ Prod.mk rfl ?_
    show ((placeLoop kA xs cnt out).2.map (Option.map f)).set _ (Option.map f (some x)) = _
    rw [← List.map_set]

theorem stableSort_map (f : α → β) (kA : α → Nat → Nat) (kB : β → Nat → Nat)
    (hk : ∀ x j, kB (f x) j = kA x j) (dflt : α) (index : Nat) (l : List α) :
    stableSort kB (f dflt) index (l.map f) = (stableSort kA dflt index l).map f := by
  unfold stableSort
  rw [countLoop_map f (fun x => kA x index) (fun y => kB y index)
    (fun x => hk x index) l]
  have hrep : (List.replicate (l.map f).length (none : Option β))
      = (List.replicate l.length (none : Option α)).map (Option.map f) := by
    rw [List.length_map, List.map_replicate]
    rfl
  rw [hrep, placeLoop_map f (fun x => kA x index) (fun y => kB y index)
    (fun x => hk x index) l]
  rw [List.map_map, List.map_map]
  apply List.map_congr_left
  intro o _
  show (Option.map f o).getD (f dflt) = f (o.getD dflt)
  cases o with
  | none => rfl
  | some a => rfl

theorem msdLoop_map (f : α → β) (nextA : List α → List α) (nextB : List β → List β)
    (hnext : ∀ m, nextB (m.map f) = (nextA m).map f)
    (kA : α → Nat) (kB : β → Nat) (hk : ∀ x, kB (f x) = kA x) :
    ∀ (r : Nat) (s : List α) (first last : Nat),
      msdLoop nextB kB (s.map f) first last r = (msdLoop nextA kA s first last r).map f := by
  have hslice : ∀ (s : List α) (a b : Nat),
      pySlice (s.map f) a b = (pySlice s a b).map f := by
    intro s a b
    unfold pySlice
    rw [List.map_take, List.map_drop]
  have hsplice : ∀ (s : List α) (a b : Nat) (m : List α),
      spliceAt (s.map f) a b (m.map f) = (spliceAt s a b m).map f := by
    intro s a b m
    unfold spliceAt
    rw [List.map_append, List.map_append, List.map_take, List.map_drop]
  have hcmp : ∀ (s : List α) (i : Nat),
      ((s.map f)[i]?).map kB = (s[i]?).map kA := by
    intro s i
    rw [List.getElem?_map, Option.map_map]
    have : kB ∘ f = kA := funext hk
    rw [this]
  intro r
  induction r with
  | zero =>
    intro s first last
    rw [msdLoop_zero, msdLoop_zero, hslice, hnext, hsplice]
  | succ r ih =>
    intro s first last
    rw [msdLoop_succ, msdLoop_succ, hcmp, hcmp]
    by_cases hcond : (s[last]?).map kA = (s[first]?).map kA
    · rw [if_pos hcond, if_pos hcond, ih]
    · rw [if_neg hcond, if_neg hcond, hslice, hnext, hsplice, ih]

theorem msdFuel_map (f : α → β) (kA : α → Nat → Nat) (kB : β → Nat → Nat)
    (hk : ∀ x j, kB (f x) j = kA x j) (dflt : α) :
    ∀ (fuel index : Nat) (l : List α),
      msdFuel kB (f dflt) fuel index (l.map f) = (msdFuel kA dflt fuel index l).map f := by
  intro fuel
  induction fuel with
  | zero => intro index l; rfl
  | succ fuel ih =>
    intro index l
    rw [msdFuel_succ, msdFuel_succ, List.length_map]
    by_cases h2 : l.length < 2
    · rw [if_pos h2, if_pos h2]
    · rw [if_neg h2, if_neg h2,
        stableSort_map f kA kB hk dflt index l,
        msdLoop_map f (msdFuel kA dflt fuel (index + 1)) (msdFuel kB (f dflt) fuel (index + 1))
          (fun m => ih (index + 1) m) (fun x => kA x index) (fun y => kB y index)
          (fun x => hk x index)]

/-! ### Agreement of the raising translation with the totalised one -/

theorem countLoopE_cons (index : Nat) (x : Str) (xs : List Str) (cnt : List Nat) :
    countLoopE index (x :: xs) cnt =
      match x[index]? with
      | none => .error .indexOutOfRange
      | some c =>
        if c < 128 then countLoopE index xs (cnt.set c (cnt.getD c 0 + 1))
        else .error .indexOutOfRange := rfl

theorem placeLoopE_cons (index : Nat) (x : Str) (xs : List Str) (cnt : List Nat)
    (out : List (Option Str)) :
    placeLoopE index (x :: xs) cnt out =
      (placeLoopE index xs cnt out).bind fun r =>
        match x[index]? with
        | none => .error .indexOutOfRange
        | some c =>
          if c < 128 then
            .ok (r.1.set c ((r.1).getD c 0 - 1), r.2.set ((r.1).getD c 0 - 1) (some x))
          else .error .indexOutOfRange := rfl

theorem strKey_eq_of_getElem (x : Str) (index c : Nat) (h : x[index]? = some c) :
    strKey x index = c := by
  unfold strKey
  rw [h]
  rfl

theorem countLoopE_eq_ok (index : Nat) :
    ∀ (l : List Str) (cnt : List Nat), (∀ x ∈ l, GoodAt index x) →
      countLoopE index l cnt = .ok
        (l.foldl (fun cnt x =>
          cnt.set (strKey x index) (cnt.getD (strKey x index) 0 + 1)) cnt) := by
  intro l
  induction l with
  | nil => intro cnt _; rfl
  | cons x xs ih =>
    intro cnt hv
    obtain ⟨c, hc, hclt⟩ := hv x (List.mem_cons_self _ _)
    rw [countLoopE_cons, hc]
    show (if c < 128 then countLoopE index xs (cnt.set c (cnt.getD c 0 + 1))
      else .error .indexOutOfRange) = _
    rw [if_pos hclt, List.foldl_cons, strKey_eq_of_getElem x index c hc]
    exact ih _ (fun y hy => hv y (List.mem_cons_of_mem _ hy))

theorem placeLoopE_eq_ok (index : Nat) :
    ∀ (l : List Str) (cnt : List Nat) (out : List (Option Str)),
      (∀ x ∈ l, GoodAt index x) →
      placeLoopE index l cnt out
        = .ok (placeLoop (fun x => strKey x index) l cnt out) := by
  intro l
  induction l with
  | nil => intro cnt out _; rfl
  | cons x xs ih =>
    intro cnt out hv
    obtain ⟨c, hc, hclt⟩ := hv x (List.mem_cons_self _ _)
    rw [placeLoopE_cons, ih cnt out (fun y hy => hv y (List.mem_cons_of_mem _ hy))]
    show (match x[index]? with
      | none => Except.error PyErr.indexOutOfRange
      | some c =>
        if c < 128 then
          Except.ok
            ((placeLoop (fun x => strKey x index) xs cnt out).1.set c
                ((placeLoop (fun x => strKey x index) xs cnt out).1.getD c 0 - 1),
              (placeLoop (fun x => strKey x index) xs cnt out).2.set
                ((placeLoop (fun x => strKey x index) xs cnt out).1.getD c 0 - 1) (some x))
        else Except.error PyErr.indexOutOfRange) = _
    rw [hc]
    show (if c < 128 then _ else Except.error PyErr.indexOutOfRange) = _
    rw [if_pos hclt, placeLoop_cons, strKey_eq_of_getElem x index c hc]

/-- On input whose characters at `index` are all defined with ordinals below
128, `_stableSort` succeeds and returns the totalised `stableSort`. -/
theorem stableSortE_eq_ok (index : Nat) (l : List Str)
    (hv : ∀ x ∈ l, GoodAt index x) :
    stableSortE index l = .ok (stableSort strKey [] index l) := by
  unfold stableSortE
  rw [countLoopE_eq_ok index l _ hv]
  show (placeLoopE index l _ _).bind _ = _
  rw [placeLoopE_eq_ok index l _ _ hv]
  rfl

/-- The counting loop raises on the first item whose character at `index` is
missing (string too short) or has an ordinal at least 128. -/
theorem countLoopE_error (index : Nat) :
    ∀ (l : List Str) (cnt : List Nat),
      (∃ x ∈ l, x[index]? = none ∨ ∃ c, x[index]? = some c ∧ 128 ≤ c) →
      countLoopE index l cnt = .error .indexOutOfRange := by
  intro l
  induction l with
  | nil =>
    intro cnt hx
    obtain ⟨x, hxm, _⟩ := hx
    simp at hxm
  | cons x xs ih =>
    intro cnt hx
    rw [countLoopE_cons]
    cases hc : x[index]? with
    | none => rfl
    | some c =>
      show (if c < 128 then countLoopE index xs (cnt.set c (cnt.getD c 0 + 1))
        else .error .indexOutOfRange) = _
      by_cases hclt : c < 128
      · rw [if_pos hclt]
        apply ih
        obtain ⟨y, hym, hy⟩ := hx
        rcases List.mem_cons.mp hym with rfl | hym2
        · exfalso
          rcases hy with h | ⟨c2, hc2, hc2ge⟩
          · rw [hc] at h
            exact Option.noConfusion h
          · rw [hc] at hc2
            rw [Option.some.injEq] at hc2
            omega
        · exact ⟨y, hym2, hy⟩
      · rw [if_neg hclt]

/-- `_stableSort` raises `IndexError` whenever some item lacks a character at
`index` (ragged input reaching past an item's length) or has an ordinal
outside `[0, 128)` there; it never skips or truncates such items. -/
theorem stableSortE_error (index : Nat) (l : List Str)
    (hx : ∃ x ∈ l, x[index]? = none ∨ ∃ c, x[index]? = some c ∧ 128 ≤ c) :
    stableSortE index l = .error .indexOutOfRange := by
  unfold stableSortE
  rw [countLoopE_error index l _ hx]
  rfl

theorem msdLoopE_zero (nextE : List Str → Except PyErr (List Str)) (index : Nat)
    (s : List Str) (first last : Nat) :
    msdLoopE nextE index s first last 0 =
      (nextE (pySlice s first last)).bind fun m => .ok (spliceAt s first last m) := rfl

/-- Agreement of the raising while-loop with the totalised one, under an
invariant `Q` on the items that guarantees the recursive calls succeed and
the character comparisons are in range. -/
theorem msdLoopE_eq_ok (Q : Str → Prop) (nextE : List Str → Except PyErr (List Str))
    (next : List Str → List Str) (index : Nat)
    (hQnext : ∀ m, (∀ x ∈ m, Q x) → nextE m = .ok (next m))
    (hlen : ∀ m, (next m).length = m.length)
    (hQmem : ∀ m, (∀ x ∈ m, Q x) → ∀ y ∈ next m, Q y)
    (hQidx : ∀ x, Q x → ∃ c, x[index]? = some c) :
    ∀ (r : Nat) (s : List Str) (first last : Nat),
      s.length = last + r → first < last → (∀ x ∈ s, Q x) →
      msdLoopE nextE index s first last r
        = .ok (msdLoop next (fun x => strKey x index) s first last r) := by
  intro r
  induction r with
  | zero =>
    intro s first last hr hfl hQ
    rw [msdLoopE_zero, msdLoop_zero]
    have hQs : ∀ x ∈ pySlice s first last, Q x := by
      intro x hxm
      unfold pySlice at hxm
      exact hQ x (List.mem_of_mem_drop (List.mem_of_mem_take hxm))
    rw [hQnext _ hQs]
    rfl
  | succ r ih =>
    intro s first last hr hfl hQ
    have hlast_lt : last < s.length := by omega
    obtain ⟨a, ha⟩ : ∃ a, s[last]? = some a := ⟨_, List.getElem?_eq_getElem hlast_lt⟩
    obtain ⟨b, hb⟩ : ∃ b, s[first]? = some b := ⟨_, List.getElem?_eq_getElem (by omega)⟩
    obtain ⟨ca, hca⟩ := hQidx a (hQ a (List.getElem?_mem ha))
    obtain ⟨cb, hcb⟩ := hQidx b (hQ b (List.getElem?_mem hb))
    rw [msdLoop_succ]
    simp only [msdLoopE, ha, hb, hca, hcb]
    have hcond_iff : (Option.map (fun x => strKey x index) (some a)
        = Option.map (fun x => strKey x index) (some b)) ↔ ca = cb := by
      simp only [Option.map]
      rw [strKey_eq_of_getElem a index ca hca, strKey_eq_of_getElem b index cb hcb]
      exact Option.some_inj
    by_cases hcc : ca = cb
    · rw [if_pos hcc, if_pos (hcond_iff.mpr hcc)]
      exact ih s first (last + 1) (by omega) (by omega) hQ
    · rw [if_neg hcc, if_neg (fun h => hcc (hcond_iff.mp h))]
      have hQs : ∀ x ∈ pySlice s first last, Q x := by
        intro x hxm
        unfold pySlice at hxm
        exact hQ x (List.mem_of_mem_drop (List.mem_of_mem_take hxm))
      rw [hQnext _ hQs]
      show msdLoopE nextE index
        (spliceAt s first last (next (pySlice s first last))) last (last + 1) r = _
      have hs2len : (spliceAt s first last (next (pySlice s first last))).length
          = s.length := by
        unfold spliceAt
        rw [List.length_append, List.length_append, hlen, List.length_take,
          List.length_drop, pySlice_length s first last (by omega) (by omega)]
        omega
      refine ih _ last (last + 1) (by rw [hs2len]; omega) (by omega) ?_
      intro x hxm
      unfold spliceAt at hxm
      rcases List.mem_append.mp hxm with hxm2 | hxm2
      · rcases List.mem_append.mp hxm2 with hxm3 | hxm3
        · exact hQ x (List.mem_of_mem_take hxm3)
        · exact hQmem _ hQs x hxm3
      · exact hQ x (List.mem_of_mem_drop hxm2)

theorem msdFuelE_zero (index : Nat) (l : List Str) : msdFuelE 0 index l = .ok l := rfl

theorem msdFuelE_succ (fuel index : Nat) (l : List Str) :
    msdFuelE (fuel + 1) index l =
      if l.length < 2 then .ok l
      else
        (stableSortE index l).bind fun sorted =>
          msdLoopE (msdFuelE fuel (index + 1)) index sorted 0 1 (l.length - 1) := rfl

theorem strKey_lt_of_goodAt (x : Str) (j : Nat) (h : GoodAt j x) : strKey x j < 128 := by
  obtain ⟨c, hc, hlt⟩ := h
  rw [strKey_eq_of_getElem x j c hc]
  exact hlt

/-- On input whose characters at every position `_msd` may examine are
defined with ordinals below 128, `_msd` succeeds and returns the totalised
`msdFuel`. -/
theorem msdFuelE_eq_ok :
    ∀ (fuel index : Nat) (l : List Str),
      (∀ x ∈ l, ∀ j, index ≤ j → j < index + fuel → GoodAt j x) →
      msdFuelE fuel index l = .ok (msdFuel strKey [] fuel index l) := by
  intro fuel
  induction fuel with
  | zero => intro index l _; rfl
  | succ fuel ih =>
    intro index l hv
    rw [msdFuelE_succ, msdFuel_succ]
    by_cases h2 : l.length < 2
    · rw [if_pos h2, if_pos h2]
    · have hv0 : ∀ x ∈ l, GoodAt index x :=
        fun x hx => hv x hx index (Nat.le_refl _) (by omega)
      have hvk0 : ∀ x ∈ l, strKey x index < 128 :=
        fun x hx => strKey_lt_of_goodAt x index (hv0 x hx)
      rw [if_neg h2, if_neg h2, stableSortE_eq_ok index l hv0]
      show msdLoopE (msdFuelE fuel (index + 1)) index
        (stableSort strKey [] index l) 0 1 (l.length - 1) = _
      have hsp := stableSort_perm strKey [] index l hvk0
      refine msdLoopE_eq_ok
        (fun x => ∀ j, index ≤ j → j < index + (fuel + 1) → GoodAt j x)
        (msdFuelE fuel (index + 1)) (msdFuel strKey [] fuel (index + 1)) index
        ?_ (fun m => msdFuel_length strKey [] fuel (index + 1) m) ?_ ?_
        (l.length - 1) (stableSort strKey [] index l) 0 1
        (by rw [stableSort_length]; omega) (by omega) ?_
      · intro m hm
        exact ih (index + 1) m (fun x hx j hj1 hj2 => hm x hx j (by omega) (by omega))
      · intro m hm y hy
        have hperm := msdFuel_perm strKey [] fuel (index + 1) m
          (fun x hx j hj1 hj2 =>
            strKey_lt_of_goodAt x j (hm x hx j (by omega) (by omega)))
        exact hm y (hperm.mem_iff.mp hy)
      · intro x hQx
        obtain ⟨c, hc, _⟩ := hQx index (Nat.le_refl _) (by omega)
        exact ⟨c, hc⟩
      · intro x hx
        exact fun j hj1 hj2 => hv x (hsp.mem_iff.mp hx) j hj1 hj2

/-! ### From the method layer to the core: `set_items`, `msd()` -/

theorem foldl_max_const (L : Nat) :
    ∀ (ml : List Nat), ml ≠ [] → (∀ x ∈ ml, x = L) →
      ∀ acc, acc ≤ L → ml.foldl max acc = L := by
  intro ml
  induction ml with
  | nil => intro h; exact absurd rfl h
  | cons x xs ih =>
    intro _ hall acc hacc
    have hx : x = L := hall x (List.mem_cons_self _ _)
    rw [List.foldl_cons, hx]
    cases hxs : xs with
    | nil =>
      show max acc L = L
      exact Nat.max_eq_right hacc
    | cons y ys =>
      rw [← hxs]
      refine ih (by rw [hxs]; exact List.cons_ne_nil _ _)
        (fun z hz => hall z (List.mem_cons_of_mem _ hz)) (max acc L) ?_
      exact Nat.max_le.mpr ⟨hacc, Nat.le_refl _⟩

theorem set_items_empty : msd.set_items [] = Except.error PyErr.valueError := rfl

theorem set_items_eq_of_len (l : List Str) (L : Nat) (hne : l ≠ [])
    (hlen : ∀ s ∈ l, s.length = L) :
    msd.set_items l = Except.ok { items := l, max_index := (L : Int) - 1 } := by
  unfold msd.set_items
  rw [if_neg (fun h => hne (List.length_eq_zero.mp h))]
  have hmax : (l.map List.length).foldl max 0 = L := by
    refine foldl_max_const L (l.map List.length)
      (fun h => hne (List.map_eq_nil_iff.mp h)) ?_ 0 (Nat.zero_le _)
    intro x hx
    rw [List.mem_map] at hx
    obtain ⟨s, hs, rfl⟩ := hx
    exact hlen s hs
  rw [hmax]

theorem strKey_lt_of_len (x : Str) (L j : Nat) (hxl : x.length = L) (hj : j < L)
    (hval : ∀ c ∈ x, c < 128) : strKey x j < 128 := by
  have hjx : j < x.length := by omega
  obtain ⟨c, hc⟩ : ∃ c, x[j]? = some c := ⟨_, List.getElem?_eq_getElem hjx⟩
  rw [strKey_eq_of_getElem x j c hc]
  exact hval c (List.getElem?_mem hc)

theorem goodAt_of_len (x : Str) (L j : Nat) (hxl : x.length = L) (hj : j < L)
    (hval : ∀ c ∈ x, c < 128) : GoodAt j x := by
  have hjx : j < x.length := by omega
  obtain ⟨c, hc⟩ : ∃ c, x[j]? = some c := ⟨_, List.getElem?_eq_getElem hjx⟩
  exact ⟨c, hc, hval c (List.getElem?_mem hc)⟩

/-- On a non-empty list of equal-length strings with 7-bit ordinals, the
pipeline `set_items` + `msd()` succeeds and returns the totalised sort with
fuel `L` (the common length): `max_index = L - 1`, so `L` positions are
examined. -/
theorem runSort_eq_ok (l : List Str) (L : Nat) (hne : l ≠ [])
    (hlen : ∀ s ∈ l, s.length = L) (hval : ∀ s ∈ l, ∀ c ∈ s, c < 128) :
    runSort l = Except.ok (msdFuel strKey [] L 0 l) := by
  unfold runSort
  rw [set_items_eq_of_len l L hne hlen]
  show msd.msd { items := l, max_index := (L : Int) - 1 } = _
  unfold msd.msd msdE
  have hfuel : (((L : Int) - 1) + 1 - ((0 : Nat) : Int)).toNat = L := by omega
  show msdFuelE (((L : Int) - 1 + 1 - ((0 : Nat) : Int)).toNat) 0 l = _
  rw [hfuel]
  apply msdFuelE_eq_ok L 0 l
  intro x hx j hj1 hj2
  exact goodAt_of_len x L j (hlen x hx) (by omega) (hval x hx)

theorem keyVec_eq_self (x : Str) (L : Nat) (hx : x.length = L) :
    keyVec strKey 0 L x = x := by
  apply List.ext_getElem?
  intro i
  unfold keyVec
  rw [List.getElem?_map]
  by_cases hi : i < L
  · rw [List.getElem?_range hi]
    have hix : i < x.length := by omega
    obtain ⟨c, hc⟩ : ∃ c, x[i]? = some c := ⟨_, List.getElem?_eq_getElem hix⟩
    show some (strKey x (0 + i)) = x[i]?
    rw [Nat.zero_add, strKey_eq_of_getElem x i c hc, hc]
  · rw [List.getElem?_eq_none (by rw [List.length_range]; omega),
      List.getElem?_eq_none (by omega)]
    rfl

/-! ### Item tagging (used to state stability) and string literals -/

/-! ### The claims -/

/-- Claim C1: for every non-empty list of equal-length strings whose
character ordinals all lie in `[0, 128)`, calling `set_items` with the list
and then `msd()` returns a list in which every pair of adjacent output items
`(a, b)` satisfies `a <= b` under ordinal-wise lexicographic comparison. -/
theorem claim_C1_lexicographic (L : Nat) (l : List Str) (hne : l ≠ [])
    (hlen : ∀ s ∈ l, s.length = L) (hval : ∀ s ∈ l, ∀ c ∈ s, c < 128) :
    ∃ out, runSort l = Except.ok out ∧
      List.Chain' (fun a b => lexLeB a b = true) out := by
  refine ⟨msdFuel strKey [] L 0 l, runSort_eq_ok l L hne hlen hval, ?_⟩
  have hv : ∀ x ∈ l, ∀ j, 0 ≤ j → j < 0 + L → strKey x j < 128 :=
    fun x hx j _ hj2 => strKey_lt_of_len x L j (hlen x hx) (by omega) (hval x hx)
  have hperm := msdFuel_perm strKey [] L 0 l hv
  have hsorted := msdFuel_sorted strKey [] L 0 l hv
  refine List.Pairwise.chain' (hsorted.imp_of_mem ?_)
  intro a b ha hb hrel
  rwa [keyVec_eq_self a L (hlen a (hperm.mem_iff.mp ha)),
    keyVec_eq_self b L (hlen b (hperm.mem_iff.mp hb))] at hrel

theorem claim_C1_witness :
    ((([[98, 97], [97, 98]] : List Str) ≠ []) ∧
      (∀ s ∈ ([[98, 97], [97, 98]] : List Str), s.length = 2) ∧
      (∀ s ∈ ([[98, 97], [97, 98]] : List Str), ∀ c ∈ s, c < 128)) ∧
    ∃ out, runSort [[98, 97], [97, 98]] = Except.ok out ∧
      List.Chain' (fun a b => lexLeB a b = true) out :=
  ⟨⟨by decide, by decide, by decide⟩,
    claim_C1_lexicographic 2 [[98, 97], [97, 98]] (by decide) (by decide) (by decide)⟩

/-- Claim C3: for every non-empty list of equal-length strings with ordinals
in `[0, 128)`, the multiset of items returned by `set_items` followed by
`msd()` equals the multiset of input items (a permutation: nothing created,
dropped or duplicated), and the output length equals the input length. -/
theorem claim_C3_permutation (L : Nat) (l : List Str) (hne : l ≠ [])
    (hlen : ∀ s ∈ l, s.length = L) (hval : ∀ s ∈ l, ∀ c ∈ s, c < 128) :
    ∃ out, runSort l = Except.ok out ∧ List.Perm out l ∧ out.length = l.length := by
  have hv : ∀ x ∈ l, ∀ j, 0 ≤ j → j < 0 + L → strKey x j < 128 :=
    fun x hx j _ hj2 => strKey_lt_of_len x L j (hlen x hx) (by omega) (hval x hx)
  have hperm := msdFuel_perm strKey [] L 0 l hv
  exact ⟨msdFuel strKey [] L 0 l, runSort_eq_ok l L hne hlen hval, hperm,
    hperm.length_eq⟩

theorem claim_C3_witness :
    ((([[99], [97]] : List Str) ≠ []) ∧
      (∀ s ∈ ([[99], [97]] : List Str), s.length = 1) ∧
      (∀ s ∈ ([[99], [97]] : List Str), ∀ c ∈ s, c < 128)) ∧
    ∃ out, runSort [[99], [97]] = Except.ok out ∧
      List.Perm out [[99], [97]] ∧ out.length = ([[99], [97]] : List Str).length :=
  ⟨⟨by decide, by decide, by decide⟩,
    claim_C3_permutation 1 [[99], [97]] (by decide) (by decide) (by decide)⟩

/-- Claim C4: for every already-sorted non-empty list of equal-length strings
with ordinals in `[0, 128)`, `set_items` followed by `msd()` returns it
unchanged: the output is the input list itself, element for element. -/
theorem claim_C4_idempotent (L : Nat) (l : List Str) (hne : l ≠ [])
    (hlen : ∀ s ∈ l, s.length = L) (hval : ∀ s ∈ l, ∀ c ∈ s, c < 128)
    (hsorted : List.Chain' (fun a b => lexLeB a b = true) l) :
    runSort l = Except.ok l := by
  rw [runSort_eq_ok l L hne hlen hval]
  have hv : ∀ x ∈ l, ∀ j, 0 ≤ j → j < 0 + L → strKey x j < 128 :=
    fun x hx j _ hj2 => strKey_lt_of_len x L j (hlen x hx) (by omega) (hval x hx)
  have hperm := msdFuel_perm strKey [] L 0 l hv
  have hsout : List.Pairwise (fun a b : Str => lexLeB a b = true)
      (msdFuel strKey [] L 0 l) := by
    refine (msdFuel_sorted strKey [] L 0 l hv).imp_of_mem ?_
    intro a b ha hb hrel
    rwa [keyVec_eq_self a L (hlen a (hperm.mem_iff.mp ha)),
      keyVec_eq_self b L (hlen b (hperm.mem_iff.mp hb))] at hrel
  haveI instT : IsTrans Str (fun a b : Str => lexLeB a b = true) :=
    ⟨fun a b c => lexLeB_trans a b c⟩
  haveI instA : IsAntisymm Str (fun a b : Str => lexLeB a b = true) :=
    ⟨fun a b => lexLeB_antisymm a b⟩
  have hsl : List.Pairwise (fun a b : Str => lexLeB a b = true) l :=
    List.chain'_iff_pairwise.mp hsorted
  exact congrArg Except.ok (List.eq_of_perm_of_sorted hperm hsout hsl)

theorem claim_C4_witness :
    ((([[97], [98]] : List Str) ≠ []) ∧
      (∀ s ∈ ([[97], [98]] : List Str), s.length = 1) ∧
      (∀ s ∈ ([[97], [98]] : List Str), ∀ c ∈ s, c < 128) ∧
      List.Chain' (fun a b => lexLeB a b = true) ([[97], [98]] : List Str)) ∧
    runSort [[97], [98]] = Except.ok [[97], [98]] :=
  ⟨⟨by decide, by decide, by decide, List.Chain.cons (by decide) List.Chain.nil⟩,
    claim_C4_idempotent 1 [[97], [98]] (by decide) (by decide) (by decide)
      (List.Chain.cons (by decide) List.Chain.nil)⟩

/-- Claim C2 (stability): for every non-empty list of equal-length strings
with ordinals in `[0, 128)` that contains duplicate items, the relative order
of equal items in the output of `set_items` followed by `msd()` matches their
relative order in the input.  Formally: tag each input item with its
position; the pipeline run on the tagged items projects (by forgetting the
tags) to the actual output — the code never looks at the tags — and for each
string value `s`, the tagged copies of `s` appear in the output in exactly
their input order. -/
theorem claim_C2_stability (L : Nat) (l : List Str) (hne : l ≠ [])
    (hlen : ∀ s ∈ l, s.length = L) (hval : ∀ s ∈ l, ∀ c ∈ s, c < 128)
    (hdup : ¬ l.Nodup) :
    ∃ out, runSort l = Except.ok out ∧
      out = (msdFuel tagKey ([], 0) L 0 (tagged l)).map Prod.fst ∧
      ∀ s : Str,
        (msdFuel tagKey ([], 0) L 0 (tagged l)).filter (fun p => p.1 == s)
          = (tagged l).filter (fun p => p.1 == s) := by
  have hmapfst : (tagged l).map Prod.fst = l := by
    unfold tagged
    exact List.map_fst_zip l (List.range l.length) (by rw [List.length_range])
  have hkey : ∀ (p : Str × Nat) (j : Nat), strKey (Prod.fst p) j = tagKey p j :=
    fun p j => rfl
  have hcommute : msdFuel strKey [] L 0 l
      = (msdFuel tagKey ([], 0) L 0 (tagged l)).map Prod.fst := by
    have h := msdFuel_map Prod.fst tagKey strKey hkey (([], 0) : Str × Nat) L 0 (tagged l)
    rw [hmapfst] at h
    exact h
  refine ⟨msdFuel strKey [] L 0 l, runSort_eq_ok l L hne hlen hval, hcommute, ?_⟩
  intro s
  refine msdFuel_filter tagKey (([], 0) : Str × Nat) L 0 (tagged l)
    (fun p => p.1 == s) ?_ ?_
  · intro p hp j hj1 hj2
    have hpl : p.1 ∈ l := (List.of_mem_zip hp).1
    exact strKey_lt_of_len p.1 L j (hlen p.1 hpl) (by omega) (hval p.1 hpl)
  · intro x y hx hy j _ _
    have hx1 : x.1 = s := by simpa using hx
    have hy1 : y.1 = s := by simpa using hy
    show strKey x.1 j = strKey y.1 j
    rw [hx1, hy1]

theorem claim_C2_witness :
    ((([[98, 98], [97, 97], [98, 98]] : List Str) ≠ []) ∧
      (∀ s ∈ ([[98, 98], [97, 97], [98, 98]] : List Str), s.length = 2) ∧
      (∀ s ∈ ([[98, 98], [97, 97], [98, 98]] : List Str), ∀ c ∈ s, c < 128) ∧
      ¬ ([[98, 98], [97, 97], [98, 98]] : List Str).Nodup) ∧
    ∃ out, runSort [[98, 98], [97, 97], [98, 98]] = Except.ok out ∧
      out = (msdFuel tagKey ([], 0) 2 0 (tagged [[98, 98], [97, 97], [98, 98]])).map
        Prod.fst ∧
      ∀ s : Str,
        (msdFuel tagKey ([], 0) 2 0 (tagged [[98, 98], [97, 97], [98, 98]])).filter
            (fun p => p.1 == s)
          = (tagged [[98, 98], [97, 97], [98, 98]]).filter (fun p => p.1 == s) :=
  ⟨⟨by decide, by decide, by decide, by decide⟩,
    claim_C2_stability 2 [[98, 98], [97, 97], [98, 98]] (by decide) (by decide)
      (by decide) (by decide)⟩

/-- Claim C5, counterexample to the size-0 half: calling `set_items` with the
empty collection raises `ValueError` (Python's `max([])`), so the pipeline
returns an error rather than the empty sequence. -/
theorem claim_C5_counterexample : runSort [] = Except.error PyErr.valueError := rfl

/-- Claim C5 as amended: a collection of size 1 is returned unchanged without
error by `set_items` followed by `msd()`; a collection of size 0 makes
`set_items` raise `ValueError` (from `max([])` on the empty list of lengths),
so `msd()` is never reached and no empty sequence is returned. -/
theorem claim_C5_amended :
    (∀ s : Str, runSort [s] = Except.ok [s]) ∧
      msd.set_items [] = Except.error PyErr.valueError := by
  refine ⟨?_, rfl⟩
  intro s
  unfold runSort
  rw [set_items_eq_of_len [s] s.length (by simp) (by simp)]
  show msd.msd _ = _
  unfold msd.msd msdE
  show msdFuelE ((((s.length : Int) - 1) + 1 - ((0 : Nat) : Int)).toNat) 0 [s] = _
  have hfuel : (((s.length : Int) - 1) + 1 - ((0 : Nat) : Int)).toNat = s.length := by
    omega
  rw [hfuel]
  cases s.length with
  | zero => rfl
  | succ f =>
    rw [msdFuelE_succ, if_pos (by simp)]

theorem claim_C5_witness :
    runSort [[97]] = Except.ok [[97]] ∧
      msd.set_items [] = Except.error PyErr.valueError :=
  ⟨claim_C5_amended.1 [97], claim_C5_amended.2⟩

/-- Claim C6: the counting sort `_stableSort` raises `IndexError` whenever it
is applied at a position `index` with `index ≥ length(item)` for some item of
its input (ragged input), or when the ordinal at `index` of some item falls
outside `[0, 128)`; it never silently truncates or skips such items. -/
theorem claim_C6_raises (index : Nat) (l : List Str)
    (h : ∃ x ∈ l, x.length ≤ index ∨ 128 ≤ strKey x index) :
    stableSortE index l = Except.error PyErr.indexOutOfRange := by
  apply stableSortE_error
  obtain ⟨x, hxl, hx⟩ := h
  refine ⟨x, hxl, ?_⟩
  rcases hx with h1 | h2
  · exact Or.inl (List.getElem?_eq_none h1)
  · by_cases hin : index < x.length
    · obtain ⟨c, hc⟩ : ∃ c, x[index]? = some c := ⟨_, List.getElem?_eq_getElem hin⟩
      refine Or.inr ⟨c, hc, ?_⟩
      rwa [strKey_eq_of_getElem x index c hc] at h2
    · exact Or.inl (List.getElem?_eq_none (by omega))

theorem claim_C6_witness :
    ((∃ x ∈ ([[97], [98, 99]] : List Str), x.length ≤ 1 ∨ 128 ≤ strKey x 1) ∧
      (∃ x ∈ ([[200], [98]] : List Str), x.length ≤ 0 ∨ 128 ≤ strKey x 0)) ∧
    stableSortE 1 [[97], [98, 99]] = Except.error PyErr.indexOutOfRange ∧
    stableSortE 0 [[200], [98]] = Except.error PyErr.indexOutOfRange :=
  ⟨⟨by decide, by decide⟩,
    claim_C6_raises 1 [[97], [98, 99]] (by decide),
    claim_C6_raises 0 [[200], [98]] (by decide)⟩

/-- Claim C8: for every non-empty input, `set_items` computes `max_index` as
`max(length(s) for s in collection) - 1`; and the recursion of `_msd` keeps
that bound fixed: a step at position `index` with bound `M` counting-sorts,
splits into maximal runs at `index`, and recurses on each run at `index + 1`
with the same `M` — the bound is never re-derived per bucket. -/
theorem claim_C8_maxIndex :
    (∀ items : List Str, items ≠ [] →
      msd.set_items items = Except.ok
        { items := items,
          max_index := (((items.map List.length).foldl max 0 : Nat) : Int) - 1 }) ∧
    (∀ (M : Int) (index : Nat) (l : List Str),
      ((index : Nat) : Int) ≤ M → 2 ≤ l.length →
      msdFrom strKey [] M index l =
        ((runs (fun x => strKey x index) (stableSort strKey [] index l)).map
          (fun m => msdFrom strKey [] M (index + 1) m)).flatten) := by
  constructor
  · intro items hne
    unfold msd.set_items
    rw [if_neg (fun h => hne (List.length_eq_zero.mp h))]
  · intro M index l hM h2
    obtain ⟨fuel, hfuel⟩ : ∃ fuel, (M + 1 - index).toNat = fuel + 1 :=
      ⟨(M - index).toNat, by omega⟩
    simp only [msdFrom]
    rw [hfuel]
    have hf2 : (M + 1 - ((index + 1 : Nat) : Int)).toNat = fuel := by
      push_cast
      omega
    simp only [hf2]
    exact msdFuel_succ_eq strKey [] fuel index l h2

theorem claim_C8_witness :
    ((([[97], [98]] : List Str) ≠ []) ∧ (((0 : Nat) : Int) ≤ (2 : Int)) ∧
      2 ≤ ([[97], [98]] : List Str).length) ∧
    msd.set_items [[97], [98]] = Except.ok
      { items := [[97], [98]],
        max_index := (((([[97], [98]] : List Str).map List.length).foldl max 0 : Nat)
          : Int) - 1 } ∧
    msdFrom strKey [] 2 0 [[97], [98]] =
      ((runs (fun x => strKey x 0) (stableSort strKey [] 0 [[97], [98]])).map
        (fun m => msdFrom strKey [] 2 1 m)).flatten :=
  ⟨⟨by decide, by decide, by decide⟩,
    claim_C8_maxIndex.1 [[97], [98]] (by decide),
    claim_C8_maxIndex.2 2 0 [[97], [98]] (by decide) (by decide)⟩

set_option maxRecDepth 100000 in
/-- Claim C9: calling `set_items` with
`["ant","bra","bat","art","aat","cob","aba","abc","bar","car"]` and then
`msd()` returns exactly
`["aat","aba","abc","ant","art","bar","bat","bra","car","cob"]`. -/
theorem claim_C9_example :
    runSort (["ant", "bra", "bat", "art", "aat", "cob", "aba", "abc", "bar",
        "car"].map strOrds)
      = Except.ok (["aat", "aba", "abc", "ant", "art", "bar", "bat", "bra", "car",
        "cob"].map strOrds) := by
  rfl

/-- Claim C10: constructing the sorter with a non-empty `items` argument does
not store the items: `self.items` is left empty while `max_index` is derived
from the argument, so a subsequent `msd()` call (without `set_items`) returns
the empty list regardless of the argument. -/
theorem claim_C10_init (items : List Str) (hne : items ≠ []) :
    (msd.init items).items = [] ∧
    (msd.init items).max_index
      = (((items.map List.length).foldl max 0 : Nat) : Int) - 1 ∧
    (msd.init items).msd = Except.ok [] := by
  refine ⟨rfl, ?_, ?_⟩
  · show (if 0 < items.length
        then (((items.map List.length).foldl max 0 : Nat) : Int) - 1 else 0) = _
    rw [if_pos (List.length_pos.mpr hne)]
  · show msdE (msd.init items).max_index 0 [] = Except.ok []
    unfold msdE
    generalize ((msd.init items).max_index + 1 - ((0 : Nat) : Int)).toNat = fuel
    cases fuel with
    | zero => rfl
    | succ f =>
      rw [msdFuelE_succ, if_pos (by simp)]

theorem claim_C10_witness :
    (([[97, 98]] : List Str) ≠ []) ∧
    (msd.init [[97, 98]]).items = [] ∧
    (msd.init [[97, 98]]).max_index
      = (((([[97, 98]] : List Str).map List.length).foldl max 0 : Nat) : Int) - 1 ∧
    (msd.init [[97, 98]]).msd = Except.ok [] :=
  ⟨by decide, claim_C10_init [[97, 98]] (by decide)⟩
